import Mathlib

/-!
Verification development for the LL(1) predictive parser in `src/LL_parser.py`.

Modelling conventions for the shallow embedding:

* A grammar (a Python `dict` mapping a nonterminal name to its production
  string) is an insertion-ordered association list `List (Char × List Char)`.
  The program addresses productions character by character
  (`gramer[t][0]`, `symbol in gramer[rule]`, `symbol not in none_terminals`),
  so nonterminal names are single characters and a production is a `List Char`.
* Tokens — entries of the `terminals` list, parser-stack entries, chart
  cells, FIRST values — are `List Char`; the atomic token `id` is
  `['i', 'd']` and the sentinel is `['$']`.
* Python exceptions (`KeyError`, `IndexError`, `ValueError`) are modelled by
  `Option`/an explicit `error` outcome; the two unbounded `while` loops (in
  `firsts` and in `parse`) take an explicit step budget, and exhausting the
  budget yields `none`, so nontermination shows up as `none` at every budget.
-/

/-- A grammar: insertion-ordered association list from a single-character
nonterminal name to its production string. -/
abbrev Grammar : Type := List (Char × List Char)

/-- Python dict lookup `d[k]` on an association list: first match, `none`
models a `KeyError`. -/
def lookupG {α : Type} : List (Char × α) → Char → Option α
  | [], _ => none
  | q :: r, c => if q.1 = c then some q.2 else lookupG r c

/-- The epsilon-production marker: the literal two-character string `"ep"`. -/
def epMark : List Char := ['e', 'p']

/-- One step of the first loop of `correction` (`LL_parser.py` lines 12–16):
if the *current* value of key `r` is exactly `"ep"`, the character `r` is
removed from every production (`geramer[dr].replace(r, "")`; the `r in
geramer[dr]` pre-test on line 15 only skips no-op replacements). -/
def phase1Step (st : Grammar) (r : Char) : Grammar :=
  if lookupG st r = some epMark then
    st.map (fun q => (q.1, q.2.filter (fun c => decide (c ≠ r))))
  else st

/-- The first loop of `correction`: iterate over the keys in insertion order,
mutating the value table in place. -/
def phase1 (g : Grammar) : Grammar := (g.map Prod.fst).foldl phase1Step g

/-- `correction(geramer)` (`LL_parser.py` lines 10–20): run the replacement
loop, then keep only entries whose (final) value differs from `"ep"`. -/
def correction (g : Grammar) : Grammar :=
  (phase1 g).filter (fun q => decide (q.2 ≠ epMark))

/-- The keys whose production is exactly the epsilon marker (in the original
grammar). -/
def epsKeys (g : Grammar) : List Char :=
  (g.filter (fun q => decide (q.2 = epMark))).map Prod.fst

/-- Removal of all symbols of `S` from a production. -/
def filt (S : List Char) (p : List Char) : List Char :=
  p.filter (fun c => decide (c ∉ S))

/-- The specification's description of `correct` (spec §4.1): drop every
nonterminal whose production is exactly the epsilon marker, and delete that
nonterminal's symbol from every remaining right-hand side. -/
def correctSpec (g : Grammar) : Grammar :=
  (g.filter (fun q => decide (q.2 ≠ epMark))).map
    (fun q => (q.1, filt (epsKeys g) q.2))

section BasicLemmas

theorem lookupG_mem {α : Type} :
    ∀ {g : List (Char × α)} {k : Char} {v : α}, lookupG g k = some v → (k, v) ∈ g := by
  intro g
  induction g with
  | nil => intro k v h; simp [lookupG] at h
  | cons q r ih =>
    intro k v h
    rw [lookupG] at h
    by_cases hq : q.1 = k
    · rw [if_pos hq] at h
      have hv : q.2 = v := Option.some.inj h
      have : (k, v) = q := by
        cases q with
        | mk a b => simp at hq hv; simp [hq, hv]
      rw [this]; exact List.mem_cons_self _ _
    · rw [if_neg hq] at h
      exact List.mem_cons_of_mem _ (ih h)

theorem lookupG_isSome_of_mem {α : Type} :
    ∀ {g : List (Char × α)} {k : Char}, k ∈ g.map Prod.fst → ∃ v, lookupG g k = some v := by
  intro g
  induction g with
  | nil => intro k h; simp at h
  | cons q r ih =>
    intro k h
    by_cases hq : q.1 = k
    · exact ⟨q.2, by rw [lookupG, if_pos hq]⟩
    · have : k ∈ r.map Prod.fst := by
        simp at h
        rcases h with h | h
        · exact absurd h.symm hq
        · simpa using h
      obtain ⟨v, hv⟩ := ih this
      exact ⟨v, by rw [lookupG, if_neg hq]; exact hv⟩

theorem lookupG_of_nodup {α : Type} :
    ∀ {g : List (Char × α)}, (g.map Prod.fst).Nodup →
      ∀ {k : Char} {v : α}, (k, v) ∈ g → lookupG g k = some v := by
  intro g
  induction g with
  | nil => intro _ k v h; simp at h
  | cons q r ih =>
    intro hnd k v h
    rw [List.map_cons, List.nodup_cons] at hnd
    rcases List.mem_cons.mp h with h | h
    · rw [lookupG, if_pos (by rw [← h]), ← h]
    · have hq : q.1 ≠ k := by
        intro hk
        exact hnd.1 (by
          rw [hk]
          exact List.mem_map.mpr ⟨(k, v), h, rfl⟩)
      rw [lookupG, if_neg hq]
      exact ih hnd.2 h

theorem lookupG_map_snd {α β : Type} (f : α → β) :
    ∀ (g : List (Char × α)) (k : Char),
      lookupG (g.map (fun q => (q.1, f q.2))) k = (lookupG g k).map f := by
  intro g
  induction g with
  | nil => intro k; simp [lookupG]
  | cons q r ih =>
    intro k
    by_cases hq : q.1 = k
    · simp [lookupG, hq]
    · simp [lookupG, hq, ih]

theorem nodup_keys_eq {α : Type} {g : List (Char × α)}
    (hnd : (g.map Prod.fst).Nodup) {k : Char} {a b : α}
    (ha : (k, a) ∈ g) (hb : (k, b) ∈ g) : a = b := by
  have h1 := lookupG_of_nodup hnd ha
  have h2 := lookupG_of_nodup hnd hb
  rw [h1] at h2
  exact Option.some.inj h2

/-- Fold preservation of an invariant. -/
theorem foldl_inv {α β : Type} {P : α → Prop} (f : α → β → α) :
    ∀ (l : List β) (a : α), P a → (∀ x b, P x → b ∈ l → P (f x b)) → P (l.foldl f a) := by
  intro l
  induction l with
  | nil => intro a ha _; exact ha
  | cons b r ih =>
    intro a ha hstep
    exact ih (f a b) (hstep a b ha (List.mem_cons_self _ _))
      (fun x c hx hc => hstep x c hx (List.mem_cons_of_mem _ hc))

/-- A fold whose every step fixes the accumulator is the identity. -/
theorem foldl_fixed {α β : Type} {f : α → β → α} {a : α} :
    ∀ {l : List β}, (∀ b ∈ l, f a b = a) → l.foldl f a = a := by
  intro l
  induction l with
  | nil => intro _; rfl
  | cons b r ih =>
    intro h
    rw [List.foldl_cons, h b (List.mem_cons_self _ _)]
    exact ih (fun c hc => h c (List.mem_cons_of_mem _ hc))

end BasicLemmas

section CorrectionLemmas

theorem epsKeys_subset (g : Grammar) : epsKeys g ⊆ g.map Prod.fst := by
  intro c hc
  rw [epsKeys] at hc
  obtain ⟨q, hq, hqc⟩ := List.mem_map.mp hc
  exact List.mem_map.mpr ⟨q, (List.mem_filter.mp hq).1, hqc⟩

theorem mem_epsKeys {g : Grammar} {k : Char} (h : (k, epMark) ∈ g) : k ∈ epsKeys g := by
  rw [epsKeys]
  exact List.mem_map.mpr ⟨(k, epMark), List.mem_filter.mpr ⟨h, by simp⟩, rfl⟩

theorem epsKeys_mem {g : Grammar} {k : Char} (h : k ∈ epsKeys g) :
    ∃ q ∈ g, q.1 = k ∧ q.2 = epMark := by
  rw [epsKeys] at h
  obtain ⟨q, hq, hqk⟩ := List.mem_map.mp h
  have := List.mem_filter.mp hq
  exact ⟨q, this.1, hqk, by simpa using this.2⟩

/-- Under the key-name restriction, the characters of `"ep"` never lie in a
subset of the key list. -/
theorem epMark_not_mem_of_keys {g : Grammar}
    (hk : ∀ q ∈ g, q.1 ≠ 'e' ∧ q.1 ≠ 'p') {S : List Char} (hS : S ⊆ epsKeys g) :
    'e' ∉ S ∧ 'p' ∉ S := by
  constructor
  · intro he
    obtain ⟨q, hq, hq1, _⟩ := epsKeys_mem (hS he)
    exact (hk q hq).1 hq1
  · intro hp
    obtain ⟨q, hq, hq1, _⟩ := epsKeys_mem (hS hp)
    exact (hk q hq).2 hq1

theorem filt_epMark {S : List Char} (he : 'e' ∉ S) (hp : 'p' ∉ S) :
    filt S epMark = epMark := by
  rw [filt, epMark]
  simp [he, hp]

/-- The table state after deleting the symbols of `S` from every production. -/
def stOf (g : Grammar) (S : List Char) : Grammar :=
  g.map (fun q => (q.1, filt S q.2))

theorem stOf_nil (g : Grammar) : stOf g [] = g := by
  rw [stOf]
  have : ∀ q : Char × List Char, (q.1, filt [] q.2) = q := by
    intro q
    cases q with
    | mk a b => simp [filt]
  simp only [this]
  exact List.map_id' g

theorem stOf_congr (g : Grammar) {S T : List Char} (h : ∀ c, c ∈ S ↔ c ∈ T) :
    stOf g S = stOf g T := by
  rw [stOf, stOf]
  apply List.map_congr_left
  intro q _
  have : filt S q.2 = filt T q.2 := by
    rw [filt, filt]
    apply List.filter_congr
    intro c _
    simp [h c]
  rw [this]

theorem filt_filt (S : List Char) (k : Char) (p : List Char) :
    (filt S p).filter (fun c => decide (c ≠ k)) = filt (S ++ [k]) p := by
  rw [filt, filt, List.filter_filter]
  apply List.filter_congr
  intro c _
  simp only [List.mem_append, List.mem_singleton, decide_eq_true_eq, Bool.and_eq_true]
  rcases Decidable.em (c ∈ S) with h | h <;> rcases Decidable.em (c = k) with h2 | h2 <;>
    simp [h, h2]

theorem filt_subset_absorb {S E : List Char} (hSE : S ⊆ E) (p : List Char) :
    filt E (filt S p) = filt E p := by
  rw [filt, filt, filt, List.filter_filter]
  apply List.filter_congr
  intro c _
  rcases Decidable.em (c ∈ S) with h | h
  · simp [h, hSE h]
  · simp [h]

/-- Main loop invariant of `correction`'s first phase: after the keys whose
running value has been seen equal to `"ep"` are exactly `S`, the table is the
original one with the symbols of `S` deleted everywhere, and processing the
remaining key list `ks` extends `S` by exactly the epsilon keys in `ks`. -/
theorem phase1_go (g : Grammar)
    (hk : ∀ q ∈ g, q.1 ≠ 'e' ∧ q.1 ≠ 'p')
    (hnd : (g.map Prod.fst).Nodup)
    (hc : ∀ q ∈ g, q.2 ≠ epMark → filt (epsKeys g) q.2 ≠ epMark) :
    ∀ (ks S : List Char), (∀ k ∈ ks, k ∈ g.map Prod.fst) → S ⊆ epsKeys g →
      List.foldl phase1Step (stOf g S) ks =
        stOf g (S ++ ks.filter (fun k => decide (k ∈ epsKeys g))) := by
  intro ks
  induction ks with
  | nil => intro S _ _; simp
  | cons k ks ih =>
    intro S hks hS
    obtain ⟨p, hp⟩ := lookupG_isSome_of_mem (hks k (List.mem_cons_self _ _))
    have hpg : (k, p) ∈ g := lookupG_mem hp
    have hcur : lookupG (stOf g S) k = some (filt S p) := by
      rw [stOf, lookupG_map_snd, hp, Option.map_some']
    rw [List.foldl_cons]
    by_cases hpe : p = epMark
    · -- the running value of `k` is still `"ep"`: the step deletes `k` everywhere
      have hkE : k ∈ epsKeys g := mem_epsKeys (hpe ▸ hpg)
      have hSk : S ++ [k] ⊆ epsKeys g := by
        intro c hc'
        rcases List.mem_append.mp hc' with h | h
        · exact hS h
        · rw [List.mem_singleton.mp h]; exact hkE
      have hval : filt S p = epMark := by
        obtain ⟨he, hpn⟩ := epMark_not_mem_of_keys hk hS
        rw [hpe, filt_epMark he hpn]
      have hstep : phase1Step (stOf g S) k = stOf g (S ++ [k]) := by
        rw [phase1Step, if_pos (by rw [hcur, hval])]
        rw [stOf, stOf, List.map_map]
        apply List.map_congr_left
        intro q _
        simp only [Function.comp_apply]
        rw [filt_filt]
      rw [hstep, ih (S ++ [k]) (fun c hc' => hks c (List.mem_cons_of_mem _ hc')) hSk]
      rw [List.filter_cons_of_pos (by simpa using hkE), List.append_assoc]
      rfl
    · -- the running value of `k` is not `"ep"`: the step is the identity
      have hkE : k ∉ epsKeys g := by
        intro hkE
        obtain ⟨q, hq, hq1, hq2⟩ := epsKeys_mem hkE
        have : q = (k, epMark) := by
          cases q with
          | mk a b => simp at hq1 hq2; simp [hq1, hq2]
        rw [this] at hq
        exact hpe (nodup_keys_eq hnd hpg hq)
      have hval : filt S p ≠ epMark := by
        intro hmk
        apply hc (k, p) hpg hpe
        have h1 : filt (epsKeys g) p = filt (epsKeys g) (filt S p) :=
          (filt_subset_absorb hS p).symm
        rw [h1, hmk]
        obtain ⟨he, hpn⟩ := epMark_not_mem_of_keys hk (fun c (hc' : c ∈ epsKeys g) => hc')
        exact filt_epMark he hpn
      have hstep : phase1Step (stOf g S) k = stOf g S := by
        rw [phase1Step, if_neg]
        rw [hcur]
        intro hx
        exact hval (Option.some.inj hx)
      rw [hstep, ih S (fun c hc' => hks c (List.mem_cons_of_mem _ hc')) hS]
      rw [List.filter_cons_of_neg (by simpa using hkE)]

theorem phase1_eq (g : Grammar)
    (hk : ∀ q ∈ g, q.1 ≠ 'e' ∧ q.1 ≠ 'p')
    (hnd : (g.map Prod.fst).Nodup)
    (hc : ∀ q ∈ g, q.2 ≠ epMark → filt (epsKeys g) q.2 ≠ epMark) :
    phase1 g = stOf g (epsKeys g) := by
  rw [phase1]
  have h0 := phase1_go g hk hnd hc (g.map Prod.fst) [] (fun k hk' => hk') (by simp)
  rw [stOf_nil] at h0
  rw [h0, List.nil_append]
  apply stOf_congr
  intro c
  constructor
  · intro h
    exact (List.mem_filter.mp h).2 |> (by simpa using ·)
  · intro h
    exact List.mem_filter.mpr ⟨epsKeys_subset g h, by simpa using h⟩

end CorrectionLemmas

/-- Claim C8 (confirmed): for every grammar with no epsilon production,
`correction` is a no-op, and it is idempotent on such grammars:
`correction (correction g) = correction g`. -/
theorem c8_correction_noop (g : Grammar) (h : ∀ q ∈ g, q.2 ≠ epMark) :
    correction g = g ∧ correction (correction g) = correction g := by
  have hph : phase1 g = g := by
    rw [phase1]
    apply foldl_fixed
    intro r _
    rw [phase1Step, if_neg]
    intro hx
    exact h _ (lookupG_mem hx) rfl
  have hcg : correction g = g := by
    rw [correction, hph]
    apply List.filter_eq_self.mpr
    intro q hq
    simpa using h q hq
  refine ⟨hcg, ?_⟩
  rw [hcg]
  exact hcg

/-- Witness for C8 at the epsilon-free grammar `{S: "aB", B: "b"}`. -/
theorem c8_witness :
    correction [('S', ['a', 'B']), ('B', ['b'])] = [('S', ['a', 'B']), ('B', ['b'])] ∧
    correction (correction [('S', ['a', 'B']), ('B', ['b'])]) =
      correction [('S', ['a', 'B']), ('B', ['b'])] :=
  c8_correction_noop _ (by decide)

/-- Claim C7 counterexample: the claim says `correction` removes *every*
nonterminal whose production is exactly the epsilon marker and deletes its
symbol from the other productions (the behaviour `correctSpec` captures).
For the grammar `{e: "ep"}` the `str.replace(r, "")` call also hits the
marker string itself (the key `e` is a character of `"ep"`), so the entry's
value becomes `"p"` and the nonterminal `e` is *not* removed: the code
returns `{e: "p"}` where the claim demands `{}`. -/
theorem c7_counterexample :
    correction [('e', epMark)] = [('e', ['p'])] ∧
    correctSpec [('e', epMark)] = [] ∧
    correction [('e', epMark)] ≠ correctSpec [('e', epMark)] := by
  refine ⟨by decide, by decide, by decide⟩

/-- Claim C7 (amended): for every raw grammar with distinct keys in which no
nonterminal is named `e` or `p` (the characters of the epsilon marker) and in
which deleting the epsilon nonterminals' symbols never turns a non-epsilon
production into the literal string `"ep"`, `correction` removes exactly the
nonterminals whose production is the epsilon marker and deletes each of their
symbols from every remaining right-hand side — that is, it agrees with the
specification's description `correctSpec`. -/
theorem c7_correction_matches_spec (g : Grammar)
    (hk : ∀ q ∈ g, q.1 ≠ 'e' ∧ q.1 ≠ 'p')
    (hnd : (g.map Prod.fst).Nodup)
    (hc : ∀ q ∈ g, q.2 ≠ epMark → filt (epsKeys g) q.2 ≠ epMark) :
    correction g = correctSpec g := by
  have hEe : 'e' ∉ epsKeys g ∧ 'p' ∉ epsKeys g :=
    epMark_not_mem_of_keys hk (fun _ hc' => hc')
  rw [correction, phase1_eq g hk hnd hc, correctSpec, stOf, List.filter_map]
  congr 1
  apply List.filter_congr
  intro q hq
  simp only [Function.comp_apply, decide_eq_decide]
  constructor
  · intro h1 h2
    apply h1
    rw [h2, filt_epMark hEe.1 hEe.2]
  · intro h1
    exact hc q hq h1

/-- Witness for the amended C7 at the spec's own epsilon scenario
`{S: "Ab", A: "ep"}`, which indeed yields `{S: "b"}`. -/
theorem c7_witness :
    correction [('S', ['A', 'b']), ('A', epMark)] =
      correctSpec [('S', ['A', 'b']), ('A', epMark)] ∧
    correctSpec [('S', ['A', 'b']), ('A', epMark)] = [('S', ['b'])] :=
  ⟨c7_correction_matches_spec _ (by decide) (by decide) (by decide), by decide⟩

/-- The `while` loop of `firsts` (`LL_parser.py` lines 48–55): walk the chain
of leading nonterminals starting at `tg` until a production starts with a
non-nonterminal.  The loop has no visited set, so it is given an explicit
step budget: `none` means the budget ran out (the Python loop is still
running), `some none` models a raised `KeyError`/`IndexError`, and
`some (some s)` is the resolved FIRST value. -/
def firstChain (g : Grammar) (nts : List Char) : Char → Nat → Option (Option (List Char))
  | _, 0 => none
  | tg, n + 1 =>
    match lookupG g tg with
    | none => some none
    | some rhs =>
      match rhs.head? with
      | none => some none
      | some c =>
        if c ∈ nts then firstChain g nts c n
        else if rhs.take 2 = ['i', 'd'] then some (some ['i', 'd'])
        else some (some [c])

/-- The per-nonterminal body of `firsts` (`LL_parser.py` lines 42–57):
if the production starts with the two characters `id` the value is `id`;
if it starts with a nonterminal, resolve it through `firstChain`;
otherwise the value is the first character. -/
def firstsOf (g : Grammar) (nts : List Char) (t : Char) (fuel : Nat) :
    Option (Option (List Char)) :=
  match lookupG g t with
  | none => some none
  | some rhs =>
    if rhs.take 2 = ['i', 'd'] then some (some ['i', 'd'])
    else
      match rhs.head? with
      | none => some none
      | some c =>
        if c ∈ nts then firstChain g nts c fuel
        else some (some [c])

section FirstLemmas

/-- On the two-element cyclic grammar `{A: "B", B: "A"}` the chain walk makes
no progress at any budget. -/
theorem firstChain_cyc (n : Nat) :
    firstChain [('A', ['B']), ('B', ['A'])] ['A', 'B'] 'A' n = none ∧
    firstChain [('A', ['B']), ('B', ['A'])] ['A', 'B'] 'B' n = none := by
  induction n with
  | zero => exact ⟨rfl, rfl⟩
  | succ n ih =>
    constructor
    · have h : firstChain [('A', ['B']), ('B', ['A'])] ['A', 'B'] 'A' (n + 1) =
          firstChain [('A', ['B']), ('B', ['A'])] ['A', 'B'] 'B' n := rfl
      rw [h]; exact ih.2
    · have h : firstChain [('A', ['B']), ('B', ['A'])] ['A', 'B'] 'B' (n + 1) =
          firstChain [('A', ['B']), ('B', ['A'])] ['A', 'B'] 'A' n := rfl
      rw [h]; exact ih.1

end FirstLemmas

/-- Claim C3 counterexample: the claim says that on a grammar whose leading
nonterminals form a cycle the FIRST computation terminates, detecting the
cycle with a bounded visited set and reporting a `CyclicFirstChainError`.
The code has no visited set and no error class at all: on `{A: "B", B: "A"}`
the chain walk (and hence the FIRST computation for `A`) produces no outcome
at any step budget — the Python `while` loop runs forever. -/
theorem c3_counterexample :
    (¬ ∃ n, (firstChain [('A', ['B']), ('B', ['A'])] ['A', 'B'] 'A' n).isSome) ∧
    (¬ ∃ n, (firstsOf [('A', ['B']), ('B', ['A'])] ['A', 'B'] 'A' n).isSome) := by
  constructor
  · rintro ⟨n, hn⟩
    rw [(firstChain_cyc n).1] at hn
    simp at hn
  · rintro ⟨n, hn⟩
    have h : firstsOf [('A', ['B']), ('B', ['A'])] ['A', 'B'] 'A' n =
        firstChain [('A', ['B']), ('B', ['A'])] ['A', 'B'] 'B' n := rfl
    rw [h, (firstChain_cyc n).2] at hn
    simp at hn

/-- Claim C3 (amended): for every grammar containing a set `C` of
nonterminals each of whose productions starts with a nonterminal again in
`C`, the FIRST computation does *not* terminate: the chain walk yields no
result under any step budget, for every member of the cycle and for every
nonterminal whose resolution enters the cycle.  (No visited-set guard or
`CyclicFirstChainError` exists anywhere in the code.) -/
theorem c3_cyclic_first_diverges (g : Grammar) (nts : List Char) (C : List Char)
    (hC : ∀ c ∈ C, ∃ rhs hd, lookupG g c = some rhs ∧ rhs.head? = some hd ∧
          hd ∈ nts ∧ hd ∈ C) :
    (∀ c ∈ C, ∀ n, firstChain g nts c n = none) ∧
    (∀ t rhs hd, lookupG g t = some rhs → rhs.take 2 ≠ ['i', 'd'] →
      rhs.head? = some hd → hd ∈ nts → hd ∈ C → ∀ n, firstsOf g nts t n = none) := by
  have hchain : ∀ n, ∀ c ∈ C, firstChain g nts c n = none := by
    intro n
    induction n with
    | zero => intro c _; rfl
    | succ n ih =>
      intro c hc
      obtain ⟨rhs, hd, hrhs, hhd, hnts, hdC⟩ := hC c hc
      have : firstChain g nts c (n + 1) = firstChain g nts hd n := by
        simp only [firstChain, hrhs, hhd, if_pos hnts]
      rw [this]
      exact ih hd hdC
  refine ⟨fun c hc n => hchain n c hc, ?_⟩
  intro t rhs hd hrhs hid hhd hnts hdC n
  have : firstsOf g nts t n = firstChain g nts hd n := by
    simp only [firstsOf, hrhs, if_neg hid, hhd, if_pos hnts]
  rw [this]
  exact hchain n hd hdC

/-- Witness for the amended C3, instantiated on the cycle `{A: "B", B: "A"}`
at concrete budgets. -/
theorem c3_witness :
    firstChain [('A', ['B']), ('B', ['A'])] ['A', 'B'] 'B' 5 = none ∧
    firstsOf [('A', ['B']), ('B', ['A'])] ['A', 'B'] 'B' 7 = none := by
  have hC : ∀ c ∈ (['A', 'B'] : List Char), ∃ rhs hd,
      lookupG [('A', ['B']), ('B', ['A'])] c = some rhs ∧ rhs.head? = some hd ∧
      hd ∈ (['A', 'B'] : List Char) ∧ hd ∈ (['A', 'B'] : List Char) := by
    intro c hc
    rcases List.mem_cons.mp hc with h | h
    · subst h
      exact ⟨['B'], 'B', rfl, rfl, by decide, by decide⟩
    · rcases List.mem_cons.mp h with h | h
      · subst h
        exact ⟨['A'], 'A', rfl, rfl, by decide, by decide⟩
      · simp at h
  have h := c3_cyclic_first_diverges [('A', ['B']), ('B', ['A'])] ['A', 'B'] ['A', 'B'] hC
  exact ⟨h.1 'B' (by decide) 5,
    h.2 'B' ['A'] 'A' rfl (by decide) rfl (by decide) (by decide) 7⟩

/-- Under a ranking function that decreases along leading-nonterminal
references, the chain walk resolves within `ρ c + 1` steps and the result is
the token `id` or a single character that is not a nonterminal. -/
theorem firstChain_resolves (g : Grammar) (ρ : Char → Nat)
    (hne : ∀ q ∈ g, q.2 ≠ [])
    (hrank : ∀ q ∈ g, ∀ hd, q.2.head? = some hd → hd ∈ g.map Prod.fst → ρ hd < ρ q.1) :
    ∀ n c, c ∈ g.map Prod.fst → ρ c < n →
      ∃ s, firstChain g (g.map Prod.fst) c n = some (some s) ∧
        (s = ['i', 'd'] ∨ ∃ c', s = [c'] ∧ c' ∉ g.map Prod.fst) := by
  intro n
  induction n with
  | zero => intro c _ h; exact absurd h (Nat.not_lt_zero _)
  | succ n ih =>
    intro c hc hlt
    obtain ⟨rhs, hrhs⟩ := lookupG_isSome_of_mem hc
    have hmem : (c, rhs) ∈ g := lookupG_mem hrhs
    obtain ⟨hd, hhd⟩ : ∃ hd, rhs.head? = some hd := by
      cases rhs with
      | nil => exact absurd rfl (hne _ hmem)
      | cons a r => exact ⟨a, rfl⟩
    by_cases hin : hd ∈ g.map Prod.fst
    · have hr : ρ hd < n := lt_of_lt_of_le (hrank _ hmem hd hhd hin) (Nat.lt_succ_iff.mp hlt)
      obtain ⟨s, hs, hsh⟩ := ih hd hin hr
      refine ⟨s, ?_, hsh⟩
      have : firstChain g (g.map Prod.fst) c (n + 1) =
          firstChain g (g.map Prod.fst) hd n := by
        simp only [firstChain, hrhs, hhd, if_pos hin]
      rw [this]
      exact hs
    · by_cases hid : rhs.take 2 = ['i', 'd']
      · refine ⟨['i', 'd'], ?_, Or.inl rfl⟩
        simp only [firstChain, hrhs, hhd, if_neg hin, if_pos hid]
      · refine ⟨[hd], ?_, Or.inr ⟨hd, rfl, hin⟩⟩
        simp only [firstChain, hrhs, hhd, if_neg hin, if_neg hid]

/-- Claim C6 (confirmed): for every grammar whose productions are nonempty
(spec §4.1 declares empty right-hand sides malformed, with undefined
downstream results) and whose leading-nonterminal references admit a
decreasing rank — the formalization of "every leading nonterminal is defined
and the chain of leading nonterminals is acyclic" — the FIRST computation
resolves every nonterminal, at some finite budget, to a single token that is
either the atomic `id` or one non-nonterminal character: FIRST(A) is never a
nonterminal and never more than one token. -/
theorem c6_first_is_terminal (g : Grammar) (ρ : Char → Nat)
    (hne : ∀ q ∈ g, q.2 ≠ [])
    (hrank : ∀ q ∈ g, ∀ hd, q.2.head? = some hd → hd ∈ g.map Prod.fst → ρ hd < ρ q.1) :
    ∀ q ∈ g, ∃ fuel s, firstsOf g (g.map Prod.fst) q.1 fuel = some (some s) ∧
      (s = ['i', 'd'] ∨ ∃ c, s = [c] ∧ c ∉ g.map Prod.fst) := by
  intro q hq
  have hkey : q.1 ∈ g.map Prod.fst := List.mem_map.mpr ⟨q, hq, rfl⟩
  obtain ⟨rhs, hrhs⟩ := lookupG_isSome_of_mem hkey
  have hmem : (q.1, rhs) ∈ g := lookupG_mem hrhs
  by_cases hid : rhs.take 2 = ['i', 'd']
  · refine ⟨0, ['i', 'd'], ?_, Or.inl rfl⟩
    simp only [firstsOf, hrhs, if_pos hid]
  · obtain ⟨hd, hhd⟩ : ∃ hd, rhs.head? = some hd := by
      cases rhs with
      | nil => exact absurd rfl (hne _ hmem)
      | cons a r => exact ⟨a, rfl⟩
    by_cases hin : hd ∈ g.map Prod.fst
    · obtain ⟨s, hs, hsh⟩ :=
        firstChain_resolves g ρ hne hrank (ρ hd + 1) hd hin (Nat.lt_succ_self _)
      refine ⟨ρ hd + 1, s, ?_, hsh⟩
      have : firstsOf g (g.map Prod.fst) q.1 (ρ hd + 1) =
          firstChain g (g.map Prod.fst) hd (ρ hd + 1) := by
        simp only [firstsOf, hrhs, if_neg hid, hhd, if_pos hin]
      rw [this]
      exact hs
    · refine ⟨0, [hd], ?_, Or.inr ⟨hd, rfl, hin⟩⟩
      simp only [firstsOf, hrhs, if_neg hid, hhd, if_pos hin, if_neg hin]

/-- Witness for C6 on the chained grammar `{S: "Ba", B: "b"}` whose leading
reference `S → B` resolves to the terminal `b`. -/
theorem c6_witness :
    ∃ fuel s,
      firstsOf [('S', ['B', 'a']), ('B', ['b'])]
        ([('S', ['B', 'a']), ('B', ['b'])].map Prod.fst) 'S' fuel = some (some s) ∧
      (s = ['i', 'd'] ∨ ∃ c, s = [c] ∧
        c ∉ ([('S', ['B', 'a']), ('B', ['b'])].map Prod.fst)) := by
  have hrank : ∀ q ∈ ([('S', ['B', 'a']), ('B', ['b'])] : Grammar), ∀ hd,
      q.2.head? = some hd →
      hd ∈ ([('S', ['B', 'a']), ('B', ['b'])] : Grammar).map Prod.fst →
      (fun c => if c = 'S' then 1 else 0) hd < (fun c => if c = 'S' then 1 else 0) q.1 := by
    intro q hq hd hhd hin
    rcases List.mem_cons.mp hq with h | h
    · subst h
      simp at hhd
      subst hhd
      simp
    · rcases List.mem_cons.mp h with h | h
      · subst h
        simp at hhd
        subst hhd
        simp at hin
      · simp at h
  exact c6_first_is_terminal [('S', ['B', 'a']), ('B', ['b'])]
    (fun c => if c = 'S' then 1 else 0) (by decide) hrank ('S', ['B', 'a'])
    (List.mem_cons_self _ _)

/-- `get_none_terminals` (`LL_parser.py` lines 22–26): the key list in
insertion order. -/
def get_none_terminals (g : Grammar) : List Char := g.map Prod.fst

/-- One character step of `get_terminals` (`LL_parser.py` lines 30–37):
append an unseen non-`d` non-nonterminal symbol, collapsing `i` to the atomic
token `id`. -/
def termStep (nts : List Char) (acc : List (List Char)) (c : Char) : List (List Char) :=
  if [c] ∉ acc ∧ c ≠ 'd' ∧ c ∉ nts then
    if c = 'i' then (if ['i', 'd'] ∉ acc then acc ++ [['i', 'd']] else acc)
    else acc ++ [[c]]
  else acc

/-- `get_terminals` (`LL_parser.py` lines 28–38): scan every production in
insertion order and append `"$"` last. -/
def get_terminals (g : Grammar) (nts : List Char) : List (List Char) :=
  (g.foldl (fun acc q => q.2.foldl (termStep nts) acc) []) ++ [['$']]

/-- `creat_chart` (`LL_parser.py` lines 113–137).  The chart is a header row
`" " :: terminals` followed by one row per nonterminal, each holding the row
label and then one cell per terminal; a cell is the production right-hand
side when the FIRST value of the row's nonterminal equals the column's
terminal and the one-space string `" "` (the initialization value) otherwise.
(The `longest_len`/`spaces` computation on lines 114–120 is dead code: the
`spaces` string is never used.  A missing `firsts`/`gramer` key would raise a
`KeyError` in Python; it is modelled by the space cell and is unreachable in
the pipeline, where the chart rows are exactly the grammar keys.) -/
def creat_chart (g fi : Grammar) (nts : List Char) (ts : List (List Char)) :
    List (List (List Char)) :=
  ([' '] :: ts) ::
    nts.map (fun A =>
      [A] :: ts.map (fun t =>
        match lookupG fi A, lookupG g A with
        | some f, some rhs => if f = t then rhs else [' ']
        | _, _ => [' ']))

/-- Two-dimensional indexing `chart[r][c]`, `none` modelling an
`IndexError`. -/
def cellAt (chart : List (List (List Char))) (r c : Nat) : Option (List Char) :=
  match chart.get? r with
  | none => none
  | some row => row.get? c

section ChartLemmas

theorem cellAt_creat_chart (g fi : Grammar) (nts : List Char) (ts : List (List Char))
    (i j : Nat) (hi : i < nts.length) (hj : j < ts.length) :
    cellAt (creat_chart g fi nts ts) (i + 1) (j + 1) =
      some (match lookupG fi (nts.get ⟨i, hi⟩), lookupG g (nts.get ⟨i, hi⟩) with
        | some f, some rhs => if f = ts.get ⟨j, hj⟩ then rhs else [' ']
        | _, _ => [' ']) := by
  rw [cellAt, creat_chart]
  rw [List.get?_cons_succ, List.get?_map]
  rw [List.get?_eq_get hi]
  simp only [Option.map_some']
  rw [List.get?_cons_succ, List.get?_map, List.get?_eq_get hj]
  simp only [Option.map_some']

end ChartLemmas

/-- Claim C4 (confirmed): with the nonterminal list being the grammar's key
list (as in the pipeline), every inner cell `(A, t)` of the chart built by
`creat_chart` equals `A`'s production right-hand side exactly when the FIRST
value recorded for `A` equals the terminal `t`, and equals the reject marker
(the one-space string, see C10) otherwise; the whole table is a pure
function of the grammar, the FIRST map and the two ordered symbol lists. -/
theorem c4_chart_cells (g fi : Grammar) (nts : List Char) (ts : List (List Char))
    (hnts : nts = g.map Prod.fst)
    (i j : Nat) (hi : i < nts.length) (hj : j < ts.length) :
    ∃ rhs, lookupG g (nts.get ⟨i, hi⟩) = some rhs ∧
      cellAt (creat_chart g fi nts ts) (i + 1) (j + 1) =
        some (if lookupG fi (nts.get ⟨i, hi⟩) = some (ts.get ⟨j, hj⟩) then rhs else [' ']) := by
  have hkey : nts.get ⟨i, hi⟩ ∈ g.map Prod.fst := by
    rw [← hnts]
    exact List.get_mem _ _ _
  obtain ⟨rhs, hrhs⟩ := lookupG_isSome_of_mem hkey
  refine ⟨rhs, hrhs, ?_⟩
  rw [cellAt_creat_chart g fi nts ts i j hi hj, hrhs]
  cases hfi : lookupG fi (nts.get ⟨i, hi⟩) with
  | none => simp
  | some f =>
    by_cases hft : f = ts.get ⟨j, hj⟩
    · simp [hft]
    · have : ¬ (some f = some (ts.get ⟨j, hj⟩)) := by
        intro hx
        exact hft (Option.some.inj hx)
      simp [hft, this]

/-- Witness for C4 on the example grammar `{S: "aBb", B: "+C", C: "(D)",
D: "id"}`: the `(S, a)` cell holds `"aBb"` and the `(S, b)` cell holds the
space marker. -/
theorem c4_witness :
    (∃ rhs, lookupG [('S', ['a', 'B', 'b']), ('B', ['+', 'C']), ('C', ['(', 'D', ')']),
        ('D', ['i', 'd'])] 'S' = some rhs ∧
      cellAt (creat_chart
          [('S', ['a', 'B', 'b']), ('B', ['+', 'C']), ('C', ['(', 'D', ')']), ('D', ['i', 'd'])]
          [('S', ['a']), ('B', ['+']), ('C', ['(']), ('D', ['i', 'd'])]
          ['S', 'B', 'C', 'D']
          [['a'], ['b'], ['+'], ['('], [')'], ['i', 'd'], ['$']]) (0 + 1) (0 + 1) =
        some (if lookupG [('S', ['a']), ('B', ['+']), ('C', ['(']), ('D', ['i', 'd'])] 'S' =
            some ['a'] then rhs else [' '])) := by
  have h := c4_chart_cells
    [('S', ['a', 'B', 'b']), ('B', ['+', 'C']), ('C', ['(', 'D', ')']), ('D', ['i', 'd'])]
    [('S', ['a']), ('B', ['+']), ('C', ['(']), ('D', ['i', 'd'])]
    ['S', 'B', 'C', 'D']
    [['a'], ['b'], ['+'], ['('], [')'], ['i', 'd'], ['$']]
    (by decide) 0 0 (by decide) (by decide)
  exact h

/-- Outcome of a `parse` run: the two returned messages (`"Successful
parse"` / `"String not accepted"`) and a raised Python exception. -/
inductive ParseOutcome : Type
  | accept : ParseOutcome
  | reject : ParseOutcome
  | error : ParseOutcome
deriving DecidableEq, Repr

/-- `make_list` (`LL_parser.py` lines 140–149): drop every `d`, turn every
`i` into the atomic token `id`, and keep any other character as a
one-character token. -/
def make_list : List Char → List (List Char)
  | [] => []
  | c :: cs =>
    if c = 'd' then make_list cs
    else if c = 'i' then ['i', 'd'] :: make_list cs
    else [c] :: make_list cs

/-- The token sequence `parse` actually walks: the normalized input with the
`"$"` sentinel appended (`LL_parser.py` line 150). -/
def parseInput (s : List Char) : List (List Char) := make_list s ++ [['$']]

/-- Python `list.index`: the position of the first occurrence, `none`
modelling a raised `ValueError`. -/
def idxOf? {α : Type} [DecidableEq α] (x : α) : List α → Option Nat
  | [] => none
  | a :: r => if a = x then some 0 else (idxOf? x r).map (· + 1)

/-- The `while True` loop of `parse` (`LL_parser.py` lines 154–169), with an
explicit step budget (`none` = budget exhausted).  Faithful to the source:
the stack-top `"$"` test returns *accept without consulting the input
cursor*; a nonterminal top looks up the chart cell at the row of the stack
top and the column of the lookahead and rejects if the cell is the empty
string, otherwise pops and pushes the normalized cell; a terminal top that
equals the lookahead pops and advances; anything else rejects.  Python
exceptions (`ValueError` from `list.index`, `IndexError` from chart or
token indexing or an empty stack) are `error`. -/
def parseLoop (chart : List (List (List Char))) (nts : List Char) (ts : List (List Char)) :
    List (List Char) → List (List Char) → Nat → List Char → Nat → Option ParseOutcome
  | _, _, _, _, 0 => none
  | stack, tokens, i, pointer, n + 1 =>
    match stack with
    | [] => some .error
    | top :: rest =>
      if top = ['$'] then some .accept
      else if top ∈ nts.map (fun c => [c]) then
        match idxOf? top (nts.map (fun c => [c])), idxOf? pointer ts with
        | some ni, some ti =>
          match cellAt chart (ni + 1) (ti + 1) with
          | none => some .error
          | some cell =>
            if cell = [] then some .reject
            else parseLoop chart nts ts (make_list cell ++ rest) tokens i pointer n
        | _, _ => some .error
      else if top = pointer then
        match tokens.get? (i + 1) with
        | none => some .error
        | some p' => parseLoop chart nts ts rest tokens (i + 1) p' n
      else some .reject

/-- `parse(string, chart, none_terminals, terminals)` (`LL_parser.py` lines
139–169): normalize the input, append the sentinel, seed the stack with
`[startNonterminal, "$"]` and run the loop. -/
def parse (chart : List (List (List Char))) (nts : List Char) (ts : List (List Char))
    (s : List Char) (fuel : Nat) : Option ParseOutcome :=
  match nts with
  | [] => some .error
  | n0 :: _ =>
    match parseInput s with
    | [] => some .error
    | p0 :: _ => parseLoop chart nts ts [[n0], ['$']] (parseInput s) 0 p0 fuel

/-- The example grammar `{S: "aBb", B: "+C", C: "(D)", D: "id"}` of the
spec's end-to-end scenarios. -/
def exG : Grammar :=
  [('S', ['a', 'B', 'b']), ('B', ['+', 'C']), ('C', ['(', 'D', ')']), ('D', ['i', 'd'])]

/-- Its nonterminal list. -/
def exNts : List Char := get_none_terminals exG

/-- Its terminal list. -/
def exTs : List (List Char) := get_terminals exG exNts

/-- Its FIRST table, as computed by `firsts` (checked by
`exFi_eq_firstsOf`). -/
def exFi : Grammar := [('S', ['a']), ('B', ['+']), ('C', ['(']), ('D', ['i', 'd'])]

/-- Sanity check: `exFi` is exactly what `firstsOf` computes for each
nonterminal of the example grammar, and `exTs` is the expected terminal
list. -/
theorem exFi_eq_firstsOf :
    (∀ q ∈ exFi, firstsOf exG exNts q.1 1 = some (some q.2)) ∧
    exTs = [['a'], ['b'], ['+'], ['('], [')'], ['i', 'd'], ['$']] ∧
    exNts = ['S', 'B', 'C', 'D'] := by decide

/-- Its parse chart. -/
def exChart : List (List (List Char)) := creat_chart exG exFi exNts exTs

/-- Claim C1 (code bug): the claim — matching the spec's transition rule —
says `parse` accepts only when the stack top is `"$"` *and* the input cursor
is at the `"$"` sentinel, so an input with unconsumed trailing tokens is not
accepted.  The code (`LL_parser.py` line 155) returns `"Successful parse"`
as soon as the stack top is `"$"` without consulting the cursor: on the
example grammar, both the language's only sentence `"a+(id)b"` and the
malformed input `"a+(id)bb"` — whose final `b` is still unconsumed when the
stack top becomes `"$"` — are accepted. -/
theorem c1_accepts_trailing_input :
    parse exChart exNts exTs ['a', '+', '(', 'i', 'd', ')', 'b'] 40 =
      some ParseOutcome.accept ∧
    parse exChart exNts exTs ['a', '+', '(', 'i', 'd', ')', 'b', 'b'] 40 =
      some ParseOutcome.accept := by decide

/-- Claim C2 (code bug): the claim says `parse` is total — every raw input
string yields Accept or Reject, never an exception; the spec's scenario 2
even promises Reject for `"a+(x)b"`.  In the code, when the stack top is a
nonterminal and the lookahead is a character outside the terminal list,
`terminals.index(pointer)` (`LL_parser.py` line 158) raises `ValueError`:
on the example grammar the input `"a+(x)b"` crashes instead of rejecting. -/
theorem c2_unknown_token_error :
    parse exChart exNts exTs ['a', '+', '(', 'x', ')', 'b'] 40 =
      some ParseOutcome.error := by decide

section TokenLemmas

theorem make_list_append (a b : List Char) :
    make_list (a ++ b) = make_list a ++ make_list b := by
  induction a with
  | nil => rfl
  | cons c cs ih =>
    by_cases hd : c = 'd'
    · simp [make_list, hd, ih]
    · by_cases hi : c = 'i'
      · simp [make_list, hd, hi, ih]
      · simp [make_list, hd, hi, ih]

theorem make_list_no_lone_d (s : List Char) : ['d'] ∉ make_list s := by
  induction s with
  | nil => simp [make_list]
  | cons c cs ih =>
    rw [make_list]
    by_cases hd : c = 'd'
    · rw [if_pos hd]; exact ih
    · rw [if_neg hd]
      by_cases hi : c = 'i'
      · rw [if_pos hi]
        intro hmem
        rcases List.mem_cons.mp hmem with h | h
        · exact absurd h (by decide)
        · exact ih h
      · rw [if_neg hi]
        intro hmem
        rcases List.mem_cons.mp hmem with h | h
        · have h1 : 'd' = c := by injection h
          exact hd h1.symm
        · exact ih h

end TokenLemmas

/-- Claim C9 (confirmed): input normalization.  The adjacent characters
`i`, `d` anywhere in the raw input become the single atomic token `id`
(`make_list` turns the `i` into the token `id` and drops the `d`); a lone
`d` never becomes a token at all, so it is never compared with any stack
symbol; and the token sequence `parse` walks is the normalized list with
the `"$"` sentinel appended. -/
theorem c9_tokenization :
    (∀ xs ys : List Char,
      make_list (xs ++ 'i' :: 'd' :: ys) = make_list xs ++ ['i', 'd'] :: make_list ys) ∧
    (∀ s : List Char, ['d'] ∉ make_list s) ∧
    (∀ s : List Char, parseInput s = make_list s ++ [['$']]) := by
  refine ⟨?_, make_list_no_lone_d, fun s => rfl⟩
  intro xs ys
  rw [make_list_append]
  congr 1

/-- The driver loop of `parse` with the `cell == ""` test (line 158 of
`LL_parser.py`) removed: the nonterminal branch always expands the cell.
Used to show that the test is dead code on charts produced by
`creat_chart` (claim C10). -/
def parseLoopN (chart : List (List (List Char))) (nts : List Char) (ts : List (List Char)) :
    List (List Char) → List (List Char) → Nat → List Char → Nat → Option ParseOutcome
  | _, _, _, _, 0 => none
  | stack, tokens, i, pointer, n + 1 =>
    match stack with
    | [] => some .error
    | top :: rest =>
      if top = ['$'] then some .accept
      else if top ∈ nts.map (fun c => [c]) then
        match idxOf? top (nts.map (fun c => [c])), idxOf? pointer ts with
        | some ni, some ti =>
          match cellAt chart (ni + 1) (ti + 1) with
          | none => some .error
          | some cell => parseLoopN chart nts ts (make_list cell ++ rest) tokens i pointer n
        | _, _ => some .error
      else if top = pointer then
        match tokens.get? (i + 1) with
        | none => some .error
        | some p' => parseLoopN chart nts ts rest tokens (i + 1) p' n
      else some .reject

section DriverLemmas

theorem idxOf?_of_mem {α : Type} [DecidableEq α] {x : α} :
    ∀ {l : List α}, x ∈ l → ∃ n, idxOf? x l = some n := by
  intro l
  induction l with
  | nil => intro h; simp at h
  | cons a r ih =>
    intro h
    by_cases ha : a = x
    · exact ⟨0, by rw [idxOf?, if_pos ha]⟩
    · have hx : x ∈ r := by
        rcases List.mem_cons.mp h with h | h
        · exact absurd h.symm ha
        · exact h
      obtain ⟨n, hn⟩ := ih hx
      exact ⟨n + 1, by rw [idxOf?, if_neg ha, hn]; rfl⟩

theorem idxOf?_some {α : Type} [DecidableEq α] {x : α} :
    ∀ {l : List α} {n : Nat}, idxOf? x l = some n →
      ∃ h : n < l.length, l.get ⟨n, h⟩ = x := by
  intro l
  induction l with
  | nil => intro n h; simp [idxOf?] at h
  | cons a r ih =>
    intro n h
    rw [idxOf?] at h
    by_cases ha : a = x
    · rw [if_pos ha] at h
      obtain rfl : n = 0 := (Option.some.inj h).symm
      exact ⟨Nat.succ_pos _, ha⟩
    · rw [if_neg ha] at h
      cases hm : idxOf? x r with
      | none => rw [hm] at h; simp at h
      | some m =>
        rw [hm] at h
        have hmn : m + 1 = n := by simpa using h
        subst hmn
        obtain ⟨hlt, hget⟩ := ih hm
        refine ⟨Nat.succ_lt_succ hlt, ?_⟩
        simpa using hget

/-- Every inner chart cell is either the row nonterminal's right-hand side
or the one-space marker. -/
theorem chart_cell_cases (g fi : Grammar) (nts : List Char) (ts : List (List Char))
    (hnts : nts = g.map Prod.fst) (i j : Nat) (hi : i < nts.length) (hj : j < ts.length) :
    ∃ rhs, (nts.get ⟨i, hi⟩, rhs) ∈ g ∧
      (cellAt (creat_chart g fi nts ts) (i + 1) (j + 1) = some rhs ∨
       cellAt (creat_chart g fi nts ts) (i + 1) (j + 1) = some [' ']) := by
  have hkey : nts.get ⟨i, hi⟩ ∈ g.map Prod.fst := by
    rw [← hnts]; exact List.get_mem _ _ _
  obtain ⟨rhs, hrhs⟩ := lookupG_isSome_of_mem hkey
  refine ⟨rhs, lookupG_mem hrhs, ?_⟩
  rw [cellAt_creat_chart g fi nts ts i j hi hj, hrhs]
  cases hfi : lookupG fi (nts.get ⟨i, hi⟩) with
  | none => right; rfl
  | some f =>
    by_cases hft : f = ts.get ⟨j, hj⟩
    · left; exact congrArg some (if_pos hft)
    · right; exact congrArg some (if_neg hft)

/-- A cell whose FIRST value does not match the column terminal is the
one-space marker. -/
theorem chart_cell_space (g fi : Grammar) (nts : List Char) (ts : List (List Char))
    (i j : Nat) (hi : i < nts.length) (hj : j < ts.length)
    (hmiss : lookupG fi (nts.get ⟨i, hi⟩) ≠ some (ts.get ⟨j, hj⟩)) :
    cellAt (creat_chart g fi nts ts) (i + 1) (j + 1) = some [' '] := by
  rw [cellAt_creat_chart g fi nts ts i j hi hj]
  cases hfi : lookupG fi (nts.get ⟨i, hi⟩) with
  | none => rfl
  | some f =>
    have hne : f ≠ ts.get ⟨j, hj⟩ := by
      intro h
      exact hmiss (by rw [hfi, h])
    cases hg : lookupG g (nts.get ⟨i, hi⟩) with
    | none => rfl
    | some rhs => exact congrArg some (if_neg hne)

end DriverLemmas

/-- Claim C10 (confirmed): on tables built by `creat_chart` from a grammar
with nonempty productions (any grammar that reaches `creat_chart` in the
pipeline: `firsts` raises on an empty production first) whose symbols do
not include the space character, (1) every inner cell not selected by the
FIRST match holds the one-character string `" "`, never `""`; (2) the
driver's reject branch that tests the looked-up cell against `""` is
unreachable: `parseLoop` behaves identically to `parseLoopN`, the loop with
that test deleted, on every configuration and budget; and (3) a
(nonterminal, lookahead) pair with no applicable production is rejected
only after the space string is pushed onto the stack and fails the
terminal-match comparison at the following step. -/
theorem c10_space_reject (g fi : Grammar) (nts : List Char) (ts : List (List Char))
    (hnts : nts = g.map Prod.fst)
    (hne : ∀ q ∈ g, q.2 ≠ [])
    (hspt : [' '] ∉ ts)
    (hspn : ' ' ∉ nts) :
    (∀ i j (hi : i < nts.length) (hj : j < ts.length),
      lookupG fi (nts.get ⟨i, hi⟩) ≠ some (ts.get ⟨j, hj⟩) →
      cellAt (creat_chart g fi nts ts) (i + 1) (j + 1) = some [' ']) ∧
    (∀ fuel stack tokens i ptr,
      parseLoop (creat_chart g fi nts ts) nts ts stack tokens i ptr fuel =
        parseLoopN (creat_chart g fi nts ts) nts ts stack tokens i ptr fuel) ∧
    (∀ A, A ∈ nts → A ≠ '$' → ∀ ptr, ptr ∈ ts → lookupG fi A ≠ some ptr →
      ∀ rest tokens i n,
        parseLoop (creat_chart g fi nts ts) nts ts ([A] :: rest) tokens i ptr (n + 2) =
          some ParseOutcome.reject) := by
  refine ⟨fun i j hi hj hmiss => chart_cell_space g fi nts ts i j hi hj hmiss, ?_, ?_⟩
  · intro fuel
    induction fuel with
    | zero => intro stack tokens i ptr; rfl
    | succ n ih =>
      intro stack tokens i ptr
      cases stack with
      | nil => rfl
      | cons top rest =>
        simp only [parseLoop, parseLoopN]
        by_cases htop : top = ['$']
        · rw [if_pos htop, if_pos htop]
        · rw [if_neg htop, if_neg htop]
          by_cases hnt : top ∈ nts.map (fun c => [c])
          · rw [if_pos hnt, if_pos hnt]
            cases hni : idxOf? top (nts.map (fun c => [c])) with
            | none => rfl
            | some ni =>
              cases hti : idxOf? ptr ts with
              | none => rfl
              | some ti =>
                obtain ⟨hni', _⟩ := idxOf?_some hni
                obtain ⟨hti', _⟩ := idxOf?_some hti
                have hni'' : ni < nts.length := by simpa using hni'
                obtain ⟨rhs, hrhsg, hcell⟩ :=
                  chart_cell_cases g fi nts ts hnts ni ti hni'' hti'
                rcases hcell with hcell | hcell
                · simp only [hcell]
                  rw [if_neg (hne _ hrhsg)]
                  exact ih _ _ _ _
                · simp only [hcell]
                  rw [if_neg (by decide : ¬ ([' '] : List Char) = [])]
                  exact ih _ _ _ _
          · rw [if_neg hnt, if_neg hnt]
            by_cases hpt : top = ptr
            · rw [if_pos hpt, if_pos hpt]
              cases tokens.get? (i + 1) with
              | none => rfl
              | some p' => exact ih _ _ _ _
            · rw [if_neg hpt, if_neg hpt]
  · intro A hA hAd ptr hptr hmiss rest tokens i n
    have hAmem : [A] ∈ nts.map (fun c => [c]) := List.mem_map.mpr ⟨A, hA, rfl⟩
    obtain ⟨ni, hni⟩ := idxOf?_of_mem hAmem
    obtain ⟨ti, hti⟩ := idxOf?_of_mem hptr
    obtain ⟨hni', hgetn⟩ := idxOf?_some hni
    obtain ⟨hti', hgett⟩ := idxOf?_some hti
    have hni'' : ni < nts.length := by simpa using hni'
    have hgetA : nts.get ⟨ni, hni''⟩ = A := by
      rw [List.get_map] at hgetn
      injection hgetn
    have hcells : cellAt (creat_chart g fi nts ts) (ni + 1) (ti + 1) = some [' '] := by
      apply chart_cell_space
      rw [hgetA, hgett]
      exact hmiss
    have hAne : ¬ ([A] : List Char) = ['$'] := by
      intro h
      apply hAd
      injection h
    have hspmem : ¬ ([' '] : List Char) ∈ nts.map (fun c => [c]) := by
      intro h
      obtain ⟨c, hc, hcs⟩ := List.mem_map.mp h
      have : c = ' ' := by injection hcs
      exact hspn (this ▸ hc)
    have hspptr : ¬ ([' '] : List Char) = ptr := by
      intro h
      exact hspt (h ▸ hptr)
    have hstep1 : parseLoop (creat_chart g fi nts ts) nts ts ([A] :: rest) tokens i ptr (n + 2) =
        parseLoop (creat_chart g fi nts ts) nts ts ([' '] :: rest) tokens i ptr (n + 1) := by
      simp only [parseLoop]
      rw [if_neg hAne, if_pos hAmem]
      simp only [hni, hti, hcells]
      rw [if_neg (by decide : ¬ ([' '] : List Char) = [])]
      rfl
    rw [hstep1]
    simp only [parseLoop]
    rw [if_neg (by decide : ¬ ([' '] : List Char) = ['$']), if_neg hspmem, if_neg hspptr]

/-- Witness for C10 on the example grammar: at the pair `(D, a)` — the
`D` row holds only the `id` cell — the driver pushes the space cell and
rejects on the next step. -/
theorem c10_witness :
    parseLoop (creat_chart exG exFi exNts exTs) exNts exTs [['D'], ['$']]
      [['a'], ['$']] 0 ['a'] (0 + 2) = some ParseOutcome.reject := by
  have h := c10_space_reject exG exFi exNts exTs rfl (by decide) (by decide) (by decide)
  exact h.2.2 'D' (by decide) (by decide) ['a'] (by decide) (by decide) [['$']] [['a'], ['$']] 0 0

/-- Python `follows_dict[k] += x`: append `x` to the value stored at `k`
(a missing key would be a `KeyError`; on an association list without the
key the update is a no-op, and every update site targets an existing
key). -/
def appendVal (st : Grammar) (k : Char) (x : List Char) : Grammar :=
  st.map (fun q => if q.1 = k then (q.1, q.2 ++ x) else q)

/-- All positions of `N` in `p`, ascending — what the incremental
`gramer[rule].index(n_t_s, indx)` calls of `LL_parser.py` lines 70–75
collect into `n_t_s_indexes`. -/
def idxsOf (p : List Char) (N : Char) : List Nat :=
  (List.range p.length).filter (fun i => decide (p.get? i = some N))

/-- Rule-2 processing of one occurrence position `i` of nonterminal `N`
inside production `p` (`LL_parser.py` lines 76–83): with the sentinel `"|"`
appended to the production, inspect the symbol after the occurrence and
append the matching candidate — `first[next]` when the next symbol is a
nonterminal, the token `id` when the next two characters are `id`, or the
next character itself — to FOLLOW(N), each time guarded by a *substring*
check (`not in` on strings) against the current FOLLOW string.  When the
next symbol is a nonterminal but its FIRST entry is already a substring,
control falls through to the `elif` branches exactly as in the source.
A `KeyError` on the FIRST lookup cannot occur in the pipeline (the FIRST
dict covers every nonterminal) and is modelled as a no-op.

`rule2Elifs` is the `elif` chain of lines 80–83 (reached either when the
next symbol is not a nonterminal, or when it is one whose FIRST entry is
already a substring of the FOLLOW string): append the token `id` when the
two characters after the occurrence are `id`, else append the next
character unless it is the `"|"` sentinel, each under the substring
guard. -/
def rule2Elifs (st : Grammar) (N : Char) (strTail : List Char) (nxt : Char) : Grammar :=
  if strTail.take 2 = ['i', 'd'] ∧ ¬ ['i', 'd'] <:+: (lookupG st N).getD [] then
    appendVal st N ['i', 'd', ',']
  else if nxt ≠ '|' ∧ ¬ [nxt] <:+: (lookupG st N).getD [] then appendVal st N [nxt, ',']
  else st

def rule2At (fi : Grammar) (nts : List Char) (p : List Char) (st : Grammar)
    (N : Char) (i : Nat) : Grammar :=
  match (p ++ ['|']).get? (i + 1) with
  | none => st
  | some nxt =>
    if nxt ∈ nts then
      match lookupG fi nxt with
      | none => st
      | some f =>
        if ¬ f <:+: (lookupG st N).getD [] then appendVal st N (f ++ [','])
        else rule2Elifs st N ((p ++ ['|']).drop (i + 1)) nxt
    else rule2Elifs st N ((p ++ ['|']).drop (i + 1)) nxt

/-- The block run each time the outer character loop of rule 2 meets an
occurrence of nonterminal `N` (`LL_parser.py` lines 68–83): rebuild the
index list incrementally and, after appending the `k`-th index, process all
indexes collected so far. -/
def rule2Occ (fi : Grammar) (nts : List Char) (p : List Char) (st : Grammar)
    (N : Char) : Grammar :=
  let idxs := idxsOf p N
  (List.range idxs.length).foldl
    (fun st' k => (idxs.take (k + 1)).foldl (fun st'' i => rule2At fi nts p st'' N i) st') st

/-- Rule 2 for one production: the outer `for symbol in gramer[rule]` loop
triggers the whole occurrence block once per occurrence of each
nonterminal character. -/
def rule2Rule (fi : Grammar) (nts : List Char) (st : Grammar)
    (rp : Char × List Char) : Grammar :=
  rp.2.foldl (fun st' c => if c ∈ nts then rule2Occ fi nts rp.2 st' c else st') st

/-- Rule 2 (`LL_parser.py` lines 62–83), starting from the all-empty FOLLOW
table. -/
def rule2 (g fi : Grammar) (nts : List Char) : Grammar :=
  g.foldl (rule2Rule fi nts) (g.map (fun q => (q.1, ([] : List Char))))

/-- One symbol step of rule 3 (`LL_parser.py` lines 87–101): propagate one
character of the source FOLLOW string into the target's FOLLOW string.  The
membership guard is again a substring test; an `i` stands for an `id` entry
and is appended as `",id"`/`"id"` (note: without the trailing-comma check
the general branch has), a comma is skipped, and any other character is
appended with a separating comma unless the target already ends with
one. -/
def rule3Add (st : Grammar) (tgt : Char) (c : Char) : Grammar :=
  if [c] <:+: (lookupG st tgt).getD [] then st
  else if c = 'i' then
    if (lookupG st tgt).getD [] = [] then appendVal st tgt ['i', 'd']
    else appendVal st tgt [',', 'i', 'd']
  else if c = ',' then st
  else if (lookupG st tgt).getD [] = [] then appendVal st tgt [c]
  else if ((lookupG st tgt).getD []).getLast? ≠ some ',' then appendVal st tgt [',', c]
  else appendVal st tgt [c]

/-- Rule 3 for one production (`LL_parser.py` lines 85–101): when the
production ends with a nonterminal, fold every character of the rule's own
FOLLOW string (a snapshot — Python strings are immutable and the iterated
string is fetched once) into the trailing nonterminal's FOLLOW string.
`gramer[rule][-1]` on an empty production would raise an `IndexError`;
that case is modelled as a skip and is excluded by the nonempty-production
hypothesis wherever the embedding is used. -/
def rule3Rule (nts : List Char) (st : Grammar) (rp : Char × List Char) : Grammar :=
  match rp.2.getLast? with
  | none => st
  | some lastc =>
    if lastc ∈ nts then
      ((lookupG st rp.1).getD []).foldl (fun st' c => rule3Add st' lastc c) st
    else st

/-- Rule 3 over all productions in declaration order. -/
def rule3 (g : Grammar) (nts : List Char) (st : Grammar) : Grammar :=
  g.foldl (rule3Rule nts) st

/-- The cleanup loop (`LL_parser.py` lines 102–104): strip one trailing
comma. -/
def stripTrail (st : Grammar) : Grammar :=
  st.map (fun q => if q.2 ≠ [] ∧ q.2.getLast? = some ',' then (q.1, q.2.dropLast) else q)

/-- Rule 1 (`LL_parser.py` lines 106–110): append `",$"` to a nonempty
FOLLOW string and make an empty one `"$"`. -/
def addDollar (st : Grammar) : Grammar :=
  st.map (fun q => if q.2 ≠ [] then (q.1, q.2 ++ [',', '$']) else (q.1, ['$']))

/-- `follows(gramer, firsts, none_terminals)` (`LL_parser.py` lines
60–111).  (The Python body reads the module-level global `first` rather
than its `firsts` parameter; at the only call site the two are the same
dict, and the embedding uses the parameter.) -/
def follows (g fi : Grammar) (nts : List Char) : Grammar :=
  addDollar (stripTrail (rule3 g nts (rule2 g fi nts)))

/-- Separator-prefixed tail of a comma join. -/
def commaJoinAux : List (List Char) → List Char
  | [] => []
  | e :: es => [','] ++ e ++ commaJoinAux es

/-- Comma-separated join of FOLLOW entries, no trailing separator. -/
def commaJoin : List (List Char) → List Char
  | [] => []
  | e :: es => e ++ commaJoinAux es

/-- Comma-separated join with a trailing comma after every entry (the shape
rule 2 produces). -/
def commaJoinT : List (List Char) → List Char
  | [] => []
  | e :: es => e ++ [','] ++ commaJoinT es

/-- A well-formed FOLLOW entry: the token `id` or one character that is
neither the comma separator nor the sentinel. -/
def EShaped (e : List Char) : Prop :=
  e = ['i', 'd'] ∨ ∃ c, e = [c] ∧ c ≠ ',' ∧ c ≠ '$'

section FollowLemmas

theorem commaJoin_cons_of_ne_nil {a : List Char} {es : List (List Char)} (h : es ≠ []) :
    commaJoin (a :: es) = a ++ [','] ++ commaJoin es := by
  cases es with
  | nil => exact absurd rfl h
  | cons b es2 =>
    rw [commaJoin, commaJoinAux, commaJoin]
    simp [List.append_assoc]

theorem commaJoinT_eq : ∀ {es : List (List Char)}, es ≠ [] →
    commaJoinT es = commaJoin es ++ [','] := by
  intro es
  induction es with
  | nil => intro h; exact absurd rfl h
  | cons e es ih =>
    intro _
    cases es with
    | nil => simp [commaJoinT, commaJoin, commaJoinAux]
    | cons e2 es2 =>
      have h2 : commaJoin (e :: e2 :: es2) = e ++ [','] ++ commaJoin (e2 :: es2) :=
        commaJoin_cons_of_ne_nil (by simp)
      rw [commaJoinT, ih (by simp), h2]
      simp [List.append_assoc]

theorem commaJoinT_append_singleton (es : List (List Char)) (x : List Char) :
    commaJoinT (es ++ [x]) = commaJoinT es ++ x ++ [','] := by
  induction es with
  | nil => simp [commaJoinT]
  | cons e es ih =>
    rw [List.cons_append, commaJoinT, ih, commaJoinT]
    simp [List.append_assoc]

theorem commaJoin_append_singleton : ∀ {es : List (List Char)}, es ≠ [] →
    ∀ (x : List Char), commaJoin (es ++ [x]) = commaJoin es ++ [','] ++ x := by
  intro es
  induction es with
  | nil => intro h; exact absurd rfl h
  | cons e es ih =>
    intro _ x
    cases es with
    | nil => simp [commaJoin, commaJoinAux]
    | cons e2 es2 =>
      have h1 : commaJoin (e :: ((e2 :: es2) ++ [x])) =
          e ++ [','] ++ commaJoin ((e2 :: es2) ++ [x]) :=
        commaJoin_cons_of_ne_nil (by simp)
      have h2 : commaJoin (e :: e2 :: es2) = e ++ [','] ++ commaJoin (e2 :: es2) :=
        commaJoin_cons_of_ne_nil (by simp)
      rw [List.cons_append, h1, ih (by simp) x, h2]
      simp [List.append_assoc]

theorem mem_infix_commaJoin : ∀ {es : List (List Char)} {e : List Char}, e ∈ es →
    e <:+: commaJoin es := by
  intro es
  induction es with
  | nil => intro e h; simp at h
  | cons a es ih =>
    intro e h
    rcases List.mem_cons.mp h with h | h
    · subst h
      exact ⟨[], commaJoinAux es, by rw [commaJoin]; simp⟩
    · have hne : es ≠ [] := List.ne_nil_of_mem h
      have hsub : commaJoin es <:+: commaJoin (a :: es) := by
        rw [commaJoin_cons_of_ne_nil hne]
        exact ⟨a ++ [','], [], by simp⟩
      exact (ih h).trans hsub

theorem mem_infix_commaJoinT : ∀ {es : List (List Char)} {e : List Char}, e ∈ es →
    e <:+: commaJoinT es := by
  intro es
  induction es with
  | nil => intro e h; simp at h
  | cons a es ih =>
    intro e h
    rcases List.mem_cons.mp h with h | h
    · subst h
      exact ⟨[], [','] ++ commaJoinT es, by rw [commaJoinT]; simp [List.append_assoc]⟩
    · exact (ih h).trans ⟨a ++ [','], [], by rw [commaJoinT]; simp [List.append_assoc]⟩

theorem mem_commaJoin : ∀ {es : List (List Char)} {c : Char}, c ∈ commaJoin es →
    c = ',' ∨ ∃ e ∈ es, c ∈ e := by
  intro es
  induction es with
  | nil => intro c h; simp [commaJoin] at h
  | cons a es ih =>
    intro c h
    cases es with
    | nil =>
      right
      refine ⟨a, List.mem_cons_self _ _, ?_⟩
      simpa [commaJoin, commaJoinAux] using h
    | cons b es2 =>
      rw [commaJoin_cons_of_ne_nil (by simp), List.append_assoc] at h
      rcases List.mem_append.mp h with h | h
      · right; exact ⟨a, List.mem_cons_self _ _, h⟩
      · rcases List.mem_append.mp h with h | h
        · left; simpa using h
        · rcases ih h with h | ⟨e, he, hce⟩
          · left; exact h
          · right; exact ⟨e, List.mem_cons_of_mem _ he, hce⟩

theorem mem_commaJoinT : ∀ {es : List (List Char)} {c : Char}, c ∈ commaJoinT es →
    c = ',' ∨ ∃ e ∈ es, c ∈ e := by
  intro es
  induction es with
  | nil => intro c h; simp [commaJoinT] at h
  | cons a es ih =>
    intro c h
    rw [commaJoinT, List.append_assoc] at h
    rcases List.mem_append.mp h with h | h
    · right; exact ⟨a, List.mem_cons_self _ _, h⟩
    · rcases List.mem_append.mp h with h | h
      · left; simpa using h
      · rcases ih h with h | ⟨e, he, hce⟩
        · left; exact h
        · right; exact ⟨e, List.mem_cons_of_mem _ he, hce⟩

theorem eshaped_ne_nil {e : List Char} (h : EShaped e) : e ≠ [] := by
  rcases h with h | ⟨c, h, _⟩ <;> simp [h]

theorem eshaped_no_dollar {e : List Char} (h : EShaped e) : '$' ∉ e := by
  rcases h with h | ⟨c, h, _, hc⟩
  · simp [h]
  · simp [h]
    exact fun hx => hc hx.symm

theorem singleton_infix_iff {c : Char} {v : List Char} : [c] <:+: v ↔ c ∈ v := by
  constructor
  · rintro ⟨s, t, rfl⟩
    simp
  · intro h
    obtain ⟨s, t, rfl⟩ := List.append_of_mem h
    exact ⟨s, t, by simp⟩

end FollowLemmas

/-- Invariant on the decomposed entry list of a FOLLOW string: entries are
distinct; each entry is well-shaped or the empty entry (an artifact of the
rule-3 `i` branch, which appends `",id"` even after a trailing comma); an
empty entry only occurs together with an `id` entry; and the last entry is
never empty. -/
def GoodEntries (es : List (List Char)) : Prop :=
  es.Nodup ∧ (∀ e ∈ es, EShaped e ∨ e = []) ∧ ([] ∈ es → ['i', 'd'] ∈ es) ∧
    es.getLast? ≠ some []

/-- FOLLOW-string invariant during rule 2: trailing-comma form. -/
def GoodValT (v : List Char) : Prop := ∃ es, v = commaJoinT es ∧ GoodEntries es

/-- FOLLOW-string invariant during rule 3: trailing or separator form. -/
def GoodVal (v : List Char) : Prop :=
  ∃ es, (v = commaJoinT es ∨ v = commaJoin es) ∧ GoodEntries es

section GoodLemmas

theorem goodEntries_nil : GoodEntries [] := by
  refine ⟨List.nodup_nil, ?_, ?_, ?_⟩ <;> simp

theorem goodValT_goodVal {v : List Char} (h : GoodValT v) : GoodVal v := by
  obtain ⟨es, hv, hG⟩ := h
  exact ⟨es, Or.inl hv, hG⟩

theorem commaJoinT_ne_nil {es : List (List Char)} (h : es ≠ []) : commaJoinT es ≠ [] := by
  cases es with
  | nil => exact absurd rfl h
  | cons a es2 => rw [commaJoinT]; simp

theorem commaJoin_ne_nil {es : List (List Char)}
    (hsh : ∀ e ∈ es, EShaped e ∨ e = []) (hlast : es.getLast? ≠ some [])
    (h : es ≠ []) : commaJoin es ≠ [] := by
  cases es with
  | nil => exact absurd rfl h
  | cons a es2 =>
    cases es2 with
    | nil =>
      have ha : a ≠ [] := by
        intro h0
        exact hlast (by simp [h0])
      simpa [commaJoin, commaJoinAux] using ha
    | cons b es3 =>
      rw [commaJoin_cons_of_ne_nil (by simp)]
      simp

theorem getLast?_commaJoinT {es : List (List Char)} (h : es ≠ []) :
    (commaJoinT es).getLast? = some ',' := by
  rw [commaJoinT_eq h]
  exact List.getLast?_concat _

theorem getLast?_commaJoin_ne_comma : ∀ {es : List (List Char)},
    (∀ e ∈ es, EShaped e ∨ e = []) → es.getLast? ≠ some [] →
    (commaJoin es).getLast? ≠ some ',' := by
  intro es
  induction es with
  | nil => intro _ _; simp [commaJoin]
  | cons a es2 ih =>
    intro hsh hlast
    cases es2 with
    | nil =>
      have ha : a ≠ [] := by
        intro h0
        exact hlast (by simp [h0])
      have hsha : EShaped a := by
        rcases hsh a (List.mem_cons_self _ _) with h | h
        · exact h
        · exact absurd h ha
      have hcj : commaJoin [a] = a := by simp [commaJoin, commaJoinAux]
      rw [hcj]
      rcases hsha with h | ⟨c, h, hc, _⟩
      · rw [h]; decide
      · rw [h]
        simp
        exact fun hx => hc hx
    | cons b es3 =>
      have h2 : commaJoin (a :: b :: es3) = (a ++ [',']) ++ commaJoin (b :: es3) := by
        rw [commaJoin_cons_of_ne_nil (by simp)]
      have hsh2 : ∀ e ∈ b :: es3, EShaped e ∨ e = [] :=
        fun e he => hsh e (List.mem_cons_of_mem _ he)
      have hlast2 : (b :: es3).getLast? ≠ some [] := by
        rwa [List.getLast?_cons_cons] at hlast
      have hne2 : commaJoin (b :: es3) ≠ [] := commaJoin_ne_nil hsh2 hlast2 (by simp)
      rw [h2, List.getLast?_append_of_ne_nil _ hne2]
      exact ih hsh2 hlast2

theorem infix_of_mem_entries {es : List (List Char)} {t e : List Char}
    (hform : t = commaJoinT es ∨ t = commaJoin es) (he : e ∈ es) : e <:+: t := by
  rcases hform with h | h
  · rw [h]; exact mem_infix_commaJoinT he
  · rw [h]; exact mem_infix_commaJoin he

theorem goodVal_no_dollar {v : List Char}
    (hes : ∃ es, (v = commaJoinT es ∨ v = commaJoin es) ∧
      (∀ e ∈ es, EShaped e ∨ e = [])) : '$' ∉ v := by
  obtain ⟨es, hform, hsh⟩ := hes
  intro hd
  have hcls : '$' = ',' ∨ ∃ e ∈ es, '$' ∈ e := by
    rcases hform with hv | hv
    · exact mem_commaJoinT (hv ▸ hd)
    · exact mem_commaJoin (hv ▸ hd)
  rcases hcls with h | ⟨e, he, hde⟩
  · exact absurd h (by decide)
  · rcases hsh e he with hs | hn
    · exact eshaped_no_dollar hs hde
    · rw [hn] at hde; simp at hde

/-- A FOLLOW string built from a nonempty entry list is nonempty. -/
theorem form_ne_nil {t : List Char} {es : List (List Char)} (hG : GoodEntries es)
    (hform : t = commaJoinT es ∨ t = commaJoin es) (h : es ≠ []) : t ≠ [] := by
  rcases hform with hv | hv
  · rw [hv]; exact commaJoinT_ne_nil h
  · rw [hv]; exact commaJoin_ne_nil hG.2.1 hG.2.2.2 h

/-- Appending one fresh well-shaped entry keeps the entry invariant. -/
theorem goodEntries_append {es : List (List Char)} (hG : GoodEntries es)
    {x : List Char} (hx : EShaped x) (hnot : x ∉ es) : GoodEntries (es ++ [x]) := by
  obtain ⟨hnd, hsh, hnil, hlast⟩ := hG
  refine ⟨?_, ?_, ?_, ?_⟩
  · rw [List.nodup_append]
    exact ⟨hnd, List.nodup_singleton _, fun a ha hax => hnot (by
      rw [List.mem_singleton.mp hax] at ha; exact ha)⟩
  · intro e he
    rcases List.mem_append.mp he with h | h
    · exact hsh e h
    · rw [List.mem_singleton.mp h]; exact Or.inl hx
  · intro h
    rcases List.mem_append.mp h with h | h
    · exact List.mem_append_left _ (hnil h)
    · exact absurd (List.mem_singleton.mp h).symm (eshaped_ne_nil hx)
  · rw [List.getLast?_concat]
    intro h
    exact eshaped_ne_nil hx (Option.some.inj h)

end GoodLemmas

section StateLemmas

theorem appendVal_keys (st : Grammar) (k : Char) (x : List Char) :
    (appendVal st k x).map Prod.fst = st.map Prod.fst := by
  rw [appendVal, List.map_map]
  apply List.map_congr_left
  intro q _
  by_cases hq : q.1 = k <;> simp [hq]

theorem mem_appendVal {st : Grammar} {k : Char} {x : List Char} {q' : Char × List Char}
    (h : q' ∈ appendVal st k x) :
    ∃ q ∈ st, q' = if q.1 = k then (q.1, q.2 ++ x) else q := by
  obtain ⟨q, hq, hq'⟩ := List.mem_map.mp h
  exact ⟨q, hq, hq'.symm⟩

theorem lookupG_none_not_mem {α : Type} :
    ∀ {st : List (Char × α)} {k : Char}, lookupG st k = none → ∀ q ∈ st, q.1 ≠ k := by
  intro st
  induction st with
  | nil => intro k _ q hq; simp at hq
  | cons a r ih =>
    intro k h q hq
    rw [lookupG] at h
    by_cases ha : a.1 = k
    · rw [if_pos ha] at h; simp at h
    · rw [if_neg ha] at h
      rcases List.mem_cons.mp hq with hq | hq
      · rw [hq]; exact ha
      · exact ih h q hq

theorem appendVal_id_of_none {st : Grammar} {k : Char} (h : lookupG st k = none)
    (x : List Char) : appendVal st k x = st := by
  rw [appendVal]
  have h2 : st.map (fun q => if q.1 = k then (q.1, q.2 ++ x) else q) = st.map id :=
    List.map_congr_left (fun q hq => by rw [if_neg (lookupG_none_not_mem h q hq)]; rfl)
  rw [h2, List.map_id]

/-- The FOLLOW-dict invariant during rule 2: same keys as the grammar, every
value in trailing-comma form with well-formed distinct entries. -/
def Inv2 (g st : Grammar) : Prop :=
  st.map Prod.fst = g.map Prod.fst ∧ ∀ q ∈ st, GoodValT q.2

/-- The FOLLOW-dict invariant during rule 3. -/
def Inv3 (g st : Grammar) : Prop :=
  st.map Prod.fst = g.map Prod.fst ∧ ∀ q ∈ st, GoodVal q.2

/-- The FOLLOW-dict invariant after the cleanup pass: separator form only. -/
def InvF (g st : Grammar) : Prop :=
  st.map Prod.fst = g.map Prod.fst ∧
  ∀ q ∈ st, ∃ es, q.2 = commaJoin es ∧ GoodEntries es

theorem appendVal_inv_gen {g st : Grammar} {P : List Char → Prop}
    (hkeys : st.map Prod.fst = g.map Prod.fst)
    (hnd : (g.map Prod.fst).Nodup)
    (hvals : ∀ q ∈ st, P q.2)
    {k : Char} {x : List Char}
    (hnew : ∀ v, lookupG st k = some v → P v → P (v ++ x)) :
    (appendVal st k x).map Prod.fst = g.map Prod.fst ∧ ∀ q ∈ appendVal st k x, P q.2 := by
  refine ⟨by rw [appendVal_keys]; exact hkeys, ?_⟩
  intro q' hq'
  obtain ⟨q, hq, hq'eq⟩ := mem_appendVal hq'
  by_cases hqk : q.1 = k
  · obtain ⟨a, b⟩ := q
    simp only at hqk
    subst hqk
    have hnd' : (st.map Prod.fst).Nodup := by rw [hkeys]; exact hnd
    have hq'2 : q' = (a, b ++ x) := by rw [hq'eq]; simp
    rw [hq'2]
    exact hnew b (lookupG_of_nodup hnd' hq) (hvals _ hq)
  · rw [hq'eq, if_neg hqk]
    exact hvals _ hq

theorem appendVal_inv2 {g st : Grammar} (hnd : (g.map Prod.fst).Nodup)
    (h : Inv2 g st) {N : Char} {cand : List Char} (hsh : EShaped cand)
    (hguard : ¬ cand <:+: (lookupG st N).getD []) :
    Inv2 g (appendVal st N (cand ++ [','])) := by
  refine appendVal_inv_gen h.1 hnd h.2 ?_
  intro v hv hP
  obtain ⟨es, hform, hG⟩ := hP
  have hvv : (lookupG st N).getD [] = v := by rw [hv]; rfl
  refine ⟨es ++ [cand], ?_, ?_⟩
  · rw [commaJoinT_append_singleton, hform]
    simp [List.append_assoc]
  · apply goodEntries_append hG hsh
    intro hmem
    apply hguard
    rw [hvv, hform]
    exact mem_infix_commaJoinT hmem

theorem rule2Elifs_inv2 {g st : Grammar} (hnd : (g.map Prod.fst).Nodup)
    (h : Inv2 g st) {N : Char} {tl : List Char} {nxt : Char}
    (hnxt : nxt = '|' ∨ (nxt ≠ ',' ∧ nxt ≠ '$')) :
    Inv2 g (rule2Elifs st N tl nxt) := by
  rw [rule2Elifs]
  split
  · next hcond =>
    have hx : ['i', 'd', ','] = ['i', 'd'] ++ [','] := rfl
    rw [hx]
    exact appendVal_inv2 hnd h (Or.inl rfl) hcond.2
  · split
    · next hcond2 =>
      have hsh : EShaped [nxt] := by
        rcases hnxt with h1 | ⟨h1, h2⟩
        · exact absurd h1 hcond2.1
        · exact Or.inr ⟨nxt, rfl, h1, h2⟩
      have hx : [nxt, ','] = [nxt] ++ [','] := rfl
      rw [hx]
      exact appendVal_inv2 hnd h hsh hcond2.2
    · exact h

theorem rule2At_inv2 {g fi st : Grammar} {nts : List Char} {p : List Char}
    (hnd : (g.map Prod.fst).Nodup)
    (hfi : ∀ q ∈ fi, EShaped q.2)
    (hp : ∀ c ∈ p, c ≠ ',' ∧ c ≠ '$')
    (h : Inv2 g st) (N : Char) (i : Nat) :
    Inv2 g (rule2At fi nts p st N i) := by
  rw [rule2At]
  split
  · exact h
  · next nxt hget =>
    have hnxt : nxt = '|' ∨ (nxt ≠ ',' ∧ nxt ≠ '$') := by
      have hmem : nxt ∈ p ++ ['|'] := List.get?_mem hget
      rcases List.mem_append.mp hmem with h1 | h1
      · exact Or.inr (hp nxt h1)
      · exact Or.inl (List.mem_singleton.mp h1)
    by_cases hin : nxt ∈ nts
    · rw [if_pos hin]
      split
      · exact h
      · next f hf =>
        split
        · next hguard => exact appendVal_inv2 hnd h (hfi _ (lookupG_mem hf)) hguard
        · exact rule2Elifs_inv2 hnd h hnxt
    · rw [if_neg hin]
      exact rule2Elifs_inv2 hnd h hnxt

theorem rule2_inv2 (g fi : Grammar) (nts : List Char)
    (hnd : (g.map Prod.fst).Nodup)
    (hfi : ∀ q ∈ fi, EShaped q.2)
    (hpc : ∀ q ∈ g, ∀ c ∈ q.2, c ≠ ',' ∧ c ≠ '$') :
    Inv2 g (rule2 g fi nts) := by
  rw [rule2]
  apply foldl_inv
  · constructor
    · rw [List.map_map]
      apply List.map_congr_left
      intro q _
      rfl
    · intro q' hq'
      obtain ⟨q, _, hq'eq⟩ := List.mem_map.mp hq'
      rw [← hq'eq]
      exact ⟨[], rfl, goodEntries_nil⟩
  · intro st rp hst hrp
    rw [rule2Rule]
    apply foldl_inv
    · exact hst
    · intro st2 c hst2 _
      by_cases hc : c ∈ nts
      · rw [if_pos hc]
        rw [rule2Occ]
        apply foldl_inv
        · exact hst2
        · intro st3 k hst3 _
          apply foldl_inv
          · exact hst3
          · intro st4 i hst4 _
            exact rule2At_inv2 hnd hfi (hpc rp hrp) hst4 c i
      · rw [if_neg hc]
        exact hst2

end StateLemmas

section Rule3Lemmas

theorem goodVal_single {x : List Char} (hx : EShaped x) : GoodVal x := by
  refine ⟨[x], Or.inr ?_, ?_, ?_, ?_, ?_⟩
  · simp [commaJoin, commaJoinAux]
  · exact List.nodup_singleton _
  · intro e he
    rw [List.mem_singleton.mp he]
    exact Or.inl hx
  · intro h
    rw [List.mem_singleton] at h
    exact absurd h.symm (eshaped_ne_nil hx)
  · intro h
    simp at h
    exact eshaped_ne_nil hx h

theorem goodVal_extend {es : List (List Char)} {x : List Char}
    (hG : GoodEntries es) (hes : es ≠ []) (hx : EShaped x) (hnot : x ∉ es) :
    GoodVal (commaJoin es ++ [','] ++ x) :=
  ⟨es ++ [x], Or.inr (commaJoin_append_singleton hes x).symm,
    goodEntries_append hG hx hnot⟩

theorem goodVal_extend_empty_id {es : List (List Char)}
    (hG : GoodEntries es) (hes : es ≠ []) (hid : ['i', 'd'] ∉ es) (hnil : [] ∉ es) :
    GoodVal (commaJoin es ++ [','] ++ [','] ++ ['i', 'd']) := by
  have h1 : es ++ [[], ['i', 'd']] = (es ++ [([] : List Char)]) ++ [['i', 'd']] := by simp
  refine ⟨es ++ [[], ['i', 'd']], Or.inr ?_, ?_, ?_, ?_, ?_⟩
  · rw [h1, commaJoin_append_singleton (by simp), commaJoin_append_singleton hes]
    simp [List.append_assoc]
  · rw [List.nodup_append]
    refine ⟨hG.1, by decide, ?_⟩
    intro a ha hax
    rcases List.mem_cons.mp hax with h | h
    · exact hnil (h ▸ ha)
    · rw [List.mem_singleton.mp h] at ha
      exact hid ha
  · intro e he
    rcases List.mem_append.mp he with h | h
    · exact hG.2.1 e h
    · rcases List.mem_cons.mp h with h | h
      · exact Or.inr h
      · rw [List.mem_singleton.mp h]
        exact Or.inl (Or.inl rfl)
  · intro _
    exact List.mem_append_right _ (by decide)
  · rw [h1, List.getLast?_concat]
    decide

end Rule3Lemmas

theorem rule3Add_inv3 {g st : Grammar} (hnd : (g.map Prod.fst).Nodup)
    (h : Inv3 g st) {tgt c : Char} (hcd : c ≠ '$') :
    Inv3 g (rule3Add st tgt c) := by
  rw [rule3Add]
  cases hl : lookupG st tgt with
  | none =>
    have heq : ∀ x, appendVal st tgt x = st := fun x => appendVal_id_of_none hl x
    simp only [heq, ite_self]
    exact h
  | some v =>
    simp only [Option.getD_some]
    have hmemv : (tgt, v) ∈ st := lookupG_mem hl
    obtain ⟨es, hform0, hG⟩ := h.2 _ hmemv
    have hform : v = commaJoinT es ∨ v = commaJoin es := hform0
    have happ : ∀ x : List Char, GoodVal (v ++ x) → Inv3 g (appendVal st tgt x) := by
      intro x hw
      refine appendVal_inv_gen h.1 hnd h.2 ?_
      intro v' hv' _
      rw [hl] at hv'
      rw [← Option.some.inj hv']
      exact hw
    by_cases hg1 : [c] <:+: v
    · rw [if_pos hg1]; exact h
    · rw [if_neg hg1]
      by_cases hci : c = 'i'
      · rw [if_pos hci]
        subst hci
        by_cases hv0 : v = []
        · rw [if_pos hv0]
          apply happ
          rw [hv0]
          exact goodVal_single (Or.inl rfl)
        · rw [if_neg hv0]
          have hes : es ≠ [] := by
            intro h0
            apply hv0
            rcases hform with hf | hf <;> rw [hf, h0] <;> rfl
          have hid : ['i', 'd'] ∉ es := by
            intro hm
            apply hg1
            exact List.IsInfix.trans (⟨[], ['d'], rfl⟩ : ['i'] <:+: ['i', 'd'])
              (infix_of_mem_entries hform hm)
          have hnil : [] ∉ es := fun hm => hid (hG.2.2.1 hm)
          apply happ
          rcases hform with hf | hf
          · have hv2 : v ++ [',', 'i', 'd'] =
                commaJoin es ++ [','] ++ [','] ++ ['i', 'd'] := by
              rw [hf, commaJoinT_eq hes]
              simp [List.append_assoc]
            rw [hv2]
            exact goodVal_extend_empty_id hG hes hid hnil
          · have hv2 : v ++ [',', 'i', 'd'] = commaJoin es ++ [','] ++ ['i', 'd'] := by
              rw [hf]
              simp [List.append_assoc]
            rw [hv2]
            exact goodVal_extend hG hes (Or.inl rfl) hid
      · rw [if_neg hci]
        by_cases hcc : c = ','
        · rw [if_pos hcc]; exact h
        · rw [if_neg hcc]
          have hshc : EShaped [c] := Or.inr ⟨c, rfl, hcc, hcd⟩
          have hnotc : [c] ∉ es := fun hm => hg1 (infix_of_mem_entries hform hm)
          by_cases hv0 : v = []
          · rw [if_pos hv0]
            apply happ
            rw [hv0]
            exact goodVal_single hshc
          · rw [if_neg hv0]
            have hes : es ≠ [] := by
              intro h0
              apply hv0
              rcases hform with hf | hf <;> rw [hf, h0] <;> rfl
            by_cases hlc : v.getLast? ≠ some ','
            · rw [if_pos hlc]
              have hf2 : v = commaJoin es := by
                rcases hform with hf | hf
                · exact absurd (by rw [hf]; exact getLast?_commaJoinT hes) hlc
                · exact hf
              apply happ
              have hv2 : v ++ [',', c] = commaJoin es ++ [','] ++ [c] := by
                rw [hf2]
                simp [List.append_assoc]
              rw [hv2]
              exact goodVal_extend hG hes hshc hnotc
            · rw [if_neg hlc]
              have hlc2 : v.getLast? = some ',' := not_not.mp hlc
              have hf2 : v = commaJoinT es := by
                rcases hform with hf | hf
                · exact hf
                · rw [hf] at hlc2
                  exact absurd hlc2 (getLast?_commaJoin_ne_comma hG.2.1 hG.2.2.2)
              apply happ
              have hv2 : v ++ [c] = commaJoin es ++ [','] ++ [c] := by
                rw [hf2, commaJoinT_eq hes]
              rw [hv2]
              exact goodVal_extend hG hes hshc hnotc

theorem rule3Rule_inv3 {g st : Grammar} {nts : List Char}
    (hnd : (g.map Prod.fst).Nodup) (h : Inv3 g st) (rp : Char × List Char) :
    Inv3 g (rule3Rule nts st rp) := by
  rw [rule3Rule]
  split
  · exact h
  · next lastc _ =>
    by_cases hin : lastc ∈ nts
    · rw [if_pos hin]
      have hsrc : ∀ c ∈ (lookupG st rp.1).getD [], c ≠ '$' := by
        cases hl : lookupG st rp.1 with
        | none => simp
        | some v =>
          simp only [Option.getD_some]
          intro c hcv hceq
          subst hceq
          obtain ⟨es, hform, hG⟩ := h.2 _ (lookupG_mem hl)
          exact goodVal_no_dollar ⟨es, hform, hG.2.1⟩ hcv
      apply foldl_inv
      · exact h
      · intro st2 c hst2 hc
        exact rule3Add_inv3 hnd hst2 (hsrc c hc)
    · rw [if_neg hin]
      exact h

theorem rule3_inv3 (g : Grammar) (nts : List Char) {st : Grammar}
    (hnd : (g.map Prod.fst).Nodup) (h : Inv3 g st) : Inv3 g (rule3 g nts st) := by
  rw [rule3]
  apply foldl_inv
  · exact h
  · intro st2 rp hst2 _
    exact rule3Rule_inv3 hnd hst2 rp

theorem stripTrail_keys (st : Grammar) :
    (stripTrail st).map Prod.fst = st.map Prod.fst := by
  rw [stripTrail, List.map_map]
  apply List.map_congr_left
  intro q _
  by_cases hq : q.2 ≠ [] ∧ q.2.getLast? = some ',' <;> simp [hq]

theorem stripTrail_invF {g st : Grammar} (h : Inv3 g st) : InvF g (stripTrail st) := by
  refine ⟨by rw [stripTrail_keys]; exact h.1, ?_⟩
  intro q' hq'
  obtain ⟨q, hq, hq'eq⟩ := List.mem_map.mp hq'
  obtain ⟨es, hform, hG⟩ := h.2 _ hq
  by_cases hes : es = []
  · have hq2 : q.2 = [] := by
      rcases hform with hf | hf <;> rw [hf, hes] <;> rfl
    have hq'2 : q' = q := by
      rw [← hq'eq, if_neg]
      intro hcond
      exact hcond.1 hq2
    rw [hq'2]
    exact ⟨[], by rw [hq2]; rfl, goodEntries_nil⟩
  · rcases hform with hf | hf
    · have hcond : q.2 ≠ [] ∧ q.2.getLast? = some ',' := by
        constructor
        · rw [hf]; exact commaJoinT_ne_nil hes
        · rw [hf]; exact getLast?_commaJoinT hes
      have hq'2 : q' = (q.1, q.2.dropLast) := by rw [← hq'eq, if_pos hcond]
      rw [hq'2]
      refine ⟨es, ?_, hG⟩
      show q.2.dropLast = commaJoin es
      rw [hf, commaJoinT_eq hes, List.dropLast_concat]
    · have hcond : ¬ (q.2 ≠ [] ∧ q.2.getLast? = some ',') := by
        intro hcond
        apply getLast?_commaJoin_ne_comma hG.2.1 hG.2.2.2
        rw [← hf]
        exact hcond.2
      have hq'2 : q' = q := by rw [← hq'eq, if_neg hcond]
      rw [hq'2]
      exact ⟨es, hf, hG⟩

theorem addDollar_keys (st : Grammar) :
    (addDollar st).map Prod.fst = st.map Prod.fst := by
  rw [addDollar, List.map_map]
  apply List.map_congr_left
  intro q _
  by_cases hq : q.2 = [] <;> simp [hq]

theorem addDollar_final {g st : Grammar} (h : InvF g st) :
    (addDollar st).map Prod.fst = g.map Prod.fst ∧
    ∀ q ∈ addDollar st, ∃ es, q.2 = commaJoin (es ++ [['$']]) ∧
      (es ++ [['$']]).Nodup ∧ (∀ e ∈ es, EShaped e ∨ e = []) := by
  refine ⟨by rw [addDollar_keys]; exact h.1, ?_⟩
  intro q' hq'
  obtain ⟨q, hq, hq'eq⟩ := List.mem_map.mp hq'
  obtain ⟨es, hform, hG⟩ := h.2 _ hq
  have hdne : ['$'] ∉ es := by
    intro hm
    rcases hG.2.1 _ hm with hs | hn
    · rcases hs with hs | ⟨c, hc, _, hcd⟩
      · exact absurd hs (by decide)
      · apply hcd
        injection hc with h1 _
        exact h1.symm
    · exact absurd hn (by decide)
  have hnodup : (es ++ [['$']]).Nodup := by
    rw [List.nodup_append]
    refine ⟨hG.1, List.nodup_singleton _, ?_⟩
    intro a ha hax
    rw [List.mem_singleton.mp hax] at ha
    exact hdne ha
  by_cases hes : es = []
  · have hq2 : q.2 = [] := by rw [hform, hes]; rfl
    have hq'2 : q' = (q.1, ['$']) := by
      rw [← hq'eq, if_neg]
      intro hc
      exact hc hq2
    rw [hq'2]
    refine ⟨[], by simp [commaJoin, commaJoinAux], by decide, by simp⟩
  · have hcne : q.2 ≠ [] := by
      rw [hform]
      exact commaJoin_ne_nil hG.2.1 hG.2.2.2 hes
    have hq'2 : q' = (q.1, q.2 ++ [',', '$']) := by rw [← hq'eq, if_pos hcne]
    rw [hq'2]
    refine ⟨es, ?_, hnodup, hG.2.1⟩
    show q.2 ++ [',', '$'] = commaJoin (es ++ [['$']])
    rw [hform, commaJoin_append_singleton hes]
    simp [List.append_assoc]

theorem eshaped_of_single {c : Char} (h1 : c ≠ ',') (h2 : c ≠ '$') : EShaped [c] :=
  Or.inr ⟨c, rfl, h1, h2⟩

theorem entry_reserved_free {e : List Char} (h : EShaped e ∨ e = []) :
    ',' ∉ e ∧ '$' ∉ e := by
  rcases h with h | h
  · rcases h with h | ⟨c, hc, h1, h2⟩
    · rw [h]; exact ⟨by decide, by decide⟩
    · rw [hc]
      constructor
      · simp
        exact fun hx => h1 hx.symm
      · simp
        exact fun hx => h2 hx.symm
  · rw [h]; exact ⟨by decide, by decide⟩

/-- Splitting a string at its first comma is unambiguous when the prefixes
are comma-free. -/
theorem comma_split : ∀ {e e' r r' : List Char}, ',' ∉ e → ',' ∉ e' →
    e ++ ',' :: r = e' ++ ',' :: r' → e = e' ∧ r = r' := by
  intro e
  induction e with
  | nil =>
    intro e' r r' _ he' heq
    cases e' with
    | nil =>
      rw [List.nil_append, List.nil_append] at heq
      injection heq with _ h2
      exact ⟨rfl, h2⟩
    | cons c' e2' =>
      rw [List.nil_append, List.cons_append] at heq
      injection heq with h1 _
      exact absurd (show ',' ∈ c' :: e2' by rw [← h1]; exact List.mem_cons_self _ _) he'
  | cons c e2 ih =>
    intro e' r r' he he' heq
    cases e' with
    | nil =>
      rw [List.nil_append, List.cons_append] at heq
      injection heq with h1 _
      exact absurd (show ',' ∈ c :: e2 by rw [h1]; exact List.mem_cons_self _ _) he
    | cons c' e2' =>
      rw [List.cons_append, List.cons_append] at heq
      injection heq with h1 h2
      have hce : ',' ∉ e2 := fun hm => he (List.mem_cons_of_mem _ hm)
      have hce' : ',' ∉ e2' := fun hm => he' (List.mem_cons_of_mem _ hm)
      obtain ⟨ha, hb⟩ := ih hce hce' h2
      exact ⟨by rw [h1, ha], hb⟩

/-- The comma-separated decomposition of a FOLLOW string is canonical: two
comma-free entry lists (with nonempty last entries) joining to the same
string are equal.  This pins the entry list of the C5 theorem: its
distinctness really is distinctness of the string's comma-separated
elements. -/
theorem commaJoin_inj : ∀ {es es' : List (List Char)},
    (∀ e ∈ es, ',' ∉ e) → (∀ e ∈ es', ',' ∉ e) →
    es.getLast? ≠ some [] → es'.getLast? ≠ some [] →
    commaJoin es = commaJoin es' → es = es' := by
  intro es
  induction es with
  | nil =>
    intro es' _ _ _ hl' heq
    cases es' with
    | nil => rfl
    | cons e' tl' =>
      cases tl' with
      | nil =>
        have he' : e' = [] := by simpa [commaJoin, commaJoinAux] using heq.symm
        exact absurd (by simp [he']) hl'
      | cons e2' tl2' =>
        rw [commaJoin_cons_of_ne_nil (by simp)] at heq
        simp [commaJoin] at heq
  | cons e tl ih =>
    intro es' hc hc' hl hl' heq
    cases es' with
    | nil =>
      cases tl with
      | nil =>
        have he : e = [] := by simpa [commaJoin, commaJoinAux] using heq
        exact absurd (by simp [he]) hl
      | cons e2 tl2 =>
        rw [commaJoin_cons_of_ne_nil (by simp)] at heq
        simp [commaJoin] at heq
    | cons e' tl' =>
      cases tl with
      | nil =>
        cases tl' with
        | nil =>
          have hee : e = e' := by simpa [commaJoin, commaJoinAux] using heq
          rw [hee]
        | cons e2' tl2' =>
          have hrw : commaJoin (e' :: e2' :: tl2') =
              e' ++ [','] ++ commaJoin (e2' :: tl2') := commaJoin_cons_of_ne_nil (by simp)
          rw [hrw] at heq
          have he2 : e = e' ++ [','] ++ commaJoin (e2' :: tl2') := by
            simpa [commaJoin, commaJoinAux] using heq
          exact absurd (by rw [he2]; simp) (hc e (List.mem_cons_self _ _))
      | cons e2 tl2 =>
        cases tl' with
        | nil =>
          have hrw : commaJoin (e :: e2 :: tl2) =
              e ++ [','] ++ commaJoin (e2 :: tl2) := commaJoin_cons_of_ne_nil (by simp)
          rw [hrw] at heq
          have he2 : e' = e ++ [','] ++ commaJoin (e2 :: tl2) := by
            simpa [commaJoin, commaJoinAux] using heq.symm
          exact absurd (by rw [he2]; simp) (hc' e' (List.mem_cons_self _ _))
        | cons e2' tl2' =>
          have hrw1 : commaJoin (e :: e2 :: tl2) =
              e ++ [','] ++ commaJoin (e2 :: tl2) := commaJoin_cons_of_ne_nil (by simp)
          have hrw2 : commaJoin (e' :: e2' :: tl2') =
              e' ++ [','] ++ commaJoin (e2' :: tl2') := commaJoin_cons_of_ne_nil (by simp)
          rw [hrw1, hrw2] at heq
          have heq2 : e ++ ',' :: commaJoin (e2 :: tl2) =
              e' ++ ',' :: commaJoin (e2' :: tl2') := by
            simpa [List.append_assoc] using heq
          obtain ⟨h1, h2⟩ := comma_split (hc e (List.mem_cons_self _ _))
            (hc' e' (List.mem_cons_self _ _)) heq2
          have htl : e2 :: tl2 = e2' :: tl2' := by
            apply ih (fun x hx => hc x (List.mem_cons_of_mem _ hx))
              (fun x hx => hc' x (List.mem_cons_of_mem _ hx)) ?_ ?_ h2
            · rwa [List.getLast?_cons_cons] at hl
            · rwa [List.getLast?_cons_cons] at hl'
          rw [h1, htl]

/-- `st'` differs from `st` only by appending (possibly nothing) at the end
of each FOLLOW string: the formal content of "entries are recorded in
first-discovery order" — no update ever reorders or inserts into the middle
of a FOLLOW string. -/
def AppendsOnly (st st' : Grammar) : Prop :=
  ∀ k, ∃ x, lookupG st' k = (lookupG st k).map (fun v => v ++ x)

theorem appendsOnly_refl (st : Grammar) : AppendsOnly st st :=
  fun k => ⟨[], by cases lookupG st k <;> simp⟩

theorem lookupG_appendVal_self (st : Grammar) (k : Char) (x : List Char) :
    lookupG (appendVal st k x) k = (lookupG st k).map (fun v => v ++ x) := by
  induction st with
  | nil => simp [appendVal, lookupG]
  | cons q r ih =>
    rw [appendVal, List.map_cons]
    by_cases hq : q.1 = k
    · simp [lookupG, hq]
    · simp only [if_neg hq]
      rw [lookupG, if_neg hq, lookupG, if_neg hq]
      exact ih

theorem lookupG_appendVal_ne (st : Grammar) (k : Char) (x : List Char)
    {k' : Char} (h : k' ≠ k) :
    lookupG (appendVal st k x) k' = lookupG st k' := by
  induction st with
  | nil => simp [appendVal, lookupG]
  | cons q r ih =>
    rw [appendVal, List.map_cons]
    by_cases hq : q.1 = k
    · rw [if_pos hq, lookupG, lookupG]
      have hq' : q.1 ≠ k' := by rw [hq]; exact fun hx => h hx.symm
      rw [if_neg hq', if_neg hq']
      exact ih
    · rw [if_neg hq]
      by_cases hq2 : q.1 = k'
      · rw [lookupG, if_pos hq2, lookupG, if_pos hq2]
      · rw [lookupG, if_neg hq2, lookupG, if_neg hq2]
        exact ih

theorem appendsOnly_appendVal (st : Grammar) (k : Char) (x : List Char) :
    AppendsOnly st (appendVal st k x) := by
  intro k'
  by_cases h : k' = k
  · subst h
    exact ⟨x, lookupG_appendVal_self st k' x⟩
  · refine ⟨[], ?_⟩
    rw [lookupG_appendVal_ne st k x h]
    cases lookupG st k' <;> simp

theorem rule2Elifs_appendsOnly (st : Grammar) (N : Char) (tl : List Char) (nxt : Char) :
    AppendsOnly st (rule2Elifs st N tl nxt) := by
  rw [rule2Elifs]
  split
  · exact appendsOnly_appendVal st N _
  · split
    · exact appendsOnly_appendVal st N _
    · exact appendsOnly_refl st

theorem rule2At_appendsOnly (fi : Grammar) (nts : List Char) (p : List Char)
    (st : Grammar) (N : Char) (i : Nat) : AppendsOnly st (rule2At fi nts p st N i) := by
  rw [rule2At]
  split
  · exact appendsOnly_refl st
  · split
    · split
      · exact appendsOnly_refl st
      · split
        · exact appendsOnly_appendVal st N _
        · exact rule2Elifs_appendsOnly st N _ _
    · exact rule2Elifs_appendsOnly st N _ _

theorem rule3Add_appendsOnly (st : Grammar) (tgt c : Char) :
    AppendsOnly st (rule3Add st tgt c) := by
  rw [rule3Add]
  split
  · exact appendsOnly_refl st
  · split
    · split
      · exact appendsOnly_appendVal st tgt _
      · exact appendsOnly_appendVal st tgt _
    · split
      · exact appendsOnly_refl st
      · split
        · exact appendsOnly_appendVal st tgt _
        · split
          · exact appendsOnly_appendVal st tgt _
          · exact appendsOnly_appendVal st tgt _

theorem addDollar_eq_map (st : Grammar) :
    addDollar st =
      st.map (fun q => (q.1, if q.2 ≠ [] then q.2 ++ [',', '$'] else ['$'])) := by
  rw [addDollar]
  apply List.map_congr_left
  intro q _
  by_cases h2 : q.2 = [] <;> simp [h2]

theorem addDollar_appendsOnly (st : Grammar) : AppendsOnly st (addDollar st) := by
  intro k
  rw [addDollar_eq_map]
  have hms := lookupG_map_snd (fun v => if v ≠ [] then v ++ [',', '$'] else ['$']) st k
  rw [hms]
  cases hl : lookupG st k with
  | none => exact ⟨[], rfl⟩
  | some v =>
    by_cases h2 : v = []
    · exact ⟨['$'], by simp [h2]⟩
    · exact ⟨[',', '$'], by simp [h2]⟩

/-- Claim C5 counterexample: the claim quantifies over *every* corrected
grammar, but the sentinel character is not reserved: in the corrected
grammar `{S: "A$", A: "a"}` rule 2 records the production character `$`
into FOLLOW(A), and rule 1 unconditionally appends the sentinel again, so
`follows` returns FOLLOW(A) = `"$,$"` — the terminal `$` occurs twice. -/
theorem c5_counterexample :
    lookupG (follows [('S', ['A', '$']), ('A', ['a'])]
        [('S', ['a']), ('A', ['a'])] ['S', 'A']) 'A' =
      some (commaJoin [['$'], ['$']]) ∧
    ¬ (([['$'], ['$']] : List (List Char)).Nodup) := by
  refine ⟨by decide, by decide⟩

/-- Claim C5 (amended): for every grammar with distinct keys, nonempty
productions (empty ones crash `gramer[rule][-1]` in Python; spec §4.1 calls
them malformed) whose production characters avoid the two characters the
FOLLOW routine reserves — the separator `,` and the sentinel `$` — and
every FIRST map whose values are the token `id` or a single non-reserved
character (as `firsts` produces for such grammars), each FOLLOW value
computed by `follows` is the comma-separated join of an entry list ending
with `$` in which the entries are pairwise distinct, each entry being the
token `id`, a single non-reserved character, or (an artifact of the rule-3
`i` branch) at most one empty entry; the entries are comma-free and
`$`-free, so the decomposition is canonical — the last conjunct proves it
unique — and "no duplicate terminals" really is distinctness of the
string's comma-separated elements.  The remaining conjuncts state the
first-discovery-order part: every primitive update the routine performs on
the FOLLOW table (`rule2At`, `rule3Add`, and rule 1's `addDollar`) only
ever appends at the end of a FOLLOW string (`AppendsOnly`), and the one
non-append step, the cleanup, merely drops a trailing separator
(`stripTrail`), so entries stand in the order they were first appended. -/
theorem c5_follows_wellformed (g fi : Grammar) (nts : List Char)
    (hnd : (g.map Prod.fst).Nodup)
    (hne : ∀ q ∈ g, q.2 ≠ [])
    (hpc : ∀ q ∈ g, ∀ c ∈ q.2, c ≠ ',' ∧ c ≠ '$')
    (hfi : ∀ q ∈ fi, EShaped q.2)
    (hcov : ∀ c ∈ nts, (lookupG fi c).isSome) :
    (∀ A ∈ g.map Prod.fst, ∃ es,
      lookupG (follows g fi nts) A = some (commaJoin (es ++ [['$']])) ∧
      (es ++ [['$']]).Nodup ∧
      (∀ e ∈ es, EShaped e ∨ e = []) ∧
      (∀ e ∈ es, ',' ∉ e ∧ '$' ∉ e) ∧
      (∀ es', (∀ e ∈ es', ',' ∉ e) →
        commaJoin (es' ++ [['$']]) = commaJoin (es ++ [['$']]) → es' = es)) ∧
    (∀ (p : List Char) (st : Grammar) (N : Char) (i : Nat),
      AppendsOnly st (rule2At fi nts p st N i)) ∧
    (∀ (st : Grammar) (tgt c : Char), AppendsOnly st (rule3Add st tgt c)) ∧
    (∀ st : Grammar, AppendsOnly st (addDollar st)) := by
  refine ⟨?_, fun p st N i => rule2At_appendsOnly fi nts p st N i,
    fun st tgt c => rule3Add_appendsOnly st tgt c, addDollar_appendsOnly⟩
  have h2 : Inv2 g (rule2 g fi nts) := rule2_inv2 g fi nts hnd hfi hpc
  have h3 : Inv3 g (rule3 g nts (rule2 g fi nts)) :=
    rule3_inv3 g nts hnd ⟨h2.1, fun q hq => goodValT_goodVal (h2.2 q hq)⟩
  have hfin := addDollar_final (stripTrail_invF h3)
  intro A hA
  have hkeys : (follows g fi nts).map Prod.fst = g.map Prod.fst := by
    rw [follows]
    exact hfin.1
  obtain ⟨v, hv⟩ := lookupG_isSome_of_mem (show A ∈ (follows g fi nts).map Prod.fst by
    rw [hkeys]; exact hA)
  have hv2 : lookupG (addDollar (stripTrail (rule3 g nts (rule2 g fi nts)))) A = some v := by
    rw [← follows]
    exact hv
  obtain ⟨es, hform, hnodup, hshape⟩ := hfin.2 _ (lookupG_mem hv2)
  have hfree : ∀ e ∈ es, ',' ∉ e ∧ '$' ∉ e := fun e he => entry_reserved_free (hshape e he)
  refine ⟨es, ?_, hnodup, hshape, hfree, ?_⟩
  · rw [hv]
    exact congrArg some hform
  · intro es' hfree' heq
    have hfr1 : ∀ e ∈ es' ++ [['$']], ',' ∉ e := by
      intro e he
      rcases List.mem_append.mp he with h | h
      · exact hfree' e h
      · rw [List.mem_singleton.mp h]; decide
    have hfr2 : ∀ e ∈ es ++ [['$']], ',' ∉ e := by
      intro e he
      rcases List.mem_append.mp he with h | h
      · exact (hfree e h).1
      · rw [List.mem_singleton.mp h]; decide
    have hl1 : (es' ++ [['$']]).getLast? ≠ some [] := by
      rw [List.getLast?_concat]; decide
    have hl2 : (es ++ [['$']]).getLast? ≠ some [] := by
      rw [List.getLast?_concat]; decide
    exact List.append_cancel_right (commaJoin_inj hfr1 hfr2 hl1 hl2 heq)

/-- Witness for the amended C5 on the example grammar: FOLLOW(S) decomposes
canonically into pairwise-distinct comma-free entries ending in `$`. -/
theorem c5_witness :
    ∃ es, lookupG (follows exG exFi exNts) 'S' = some (commaJoin (es ++ [['$']])) ∧
      (es ++ [['$']]).Nodup ∧
      (∀ e ∈ es, EShaped e ∨ e = []) ∧
      (∀ e ∈ es, ',' ∉ e ∧ '$' ∉ e) ∧
      (∀ es', (∀ e ∈ es', ',' ∉ e) →
        commaJoin (es' ++ [['$']]) = commaJoin (es ++ [['$']]) → es' = es) := by
  have hfi : ∀ q ∈ exFi, EShaped q.2 := by
    intro q hq
    rw [show exFi = [('S', ['a']), ('B', ['+']), ('C', ['(']), ('D', ['i', 'd'])] from rfl]
      at hq
    rcases List.mem_cons.mp hq with h | hq
    · rw [h]; exact eshaped_of_single (by decide) (by decide)
    rcases List.mem_cons.mp hq with h | hq
    · rw [h]; exact eshaped_of_single (by decide) (by decide)
    rcases List.mem_cons.mp hq with h | hq
    · rw [h]; exact eshaped_of_single (by decide) (by decide)
    rcases List.mem_cons.mp hq with h | hq
    · rw [h]; exact Or.inl rfl
    · simp at hq
  exact (c5_follows_wellformed exG exFi exNts (by decide) (by decide) (by decide) hfi
    (by decide)).1 'S' (by decide)
